import Mathlib

/-!
Verification of `eslint-formatter-toml`.

The repository's own code (`src/formatter.js`) is a thin pass-through: the
exported `formatTOML(results)` calls the external `json2toml` conversion
routine and returns its string unchanged.  The specification describes the
serializer itself (data model, partition-and-reorder of record entries,
inline arrays, string escaping, error taxonomy, round-trip with a parser).
That serializer is not part of `src/`; following the spec's own words, it is
modelled here explicitly and the claims are settled against the model.
The pass-through function of `src/formatter.js` is embedded on top of it.
-/

namespace ETF

/-- Modelled from the spec (§3 DATA MODEL): the tagged `Value` union
{String, Integer, Boolean, Array, Record}, extended with the unsupported
inputs the spec names in §7 (`null`, floating-point specials such as NaN,
and function values), so that the error taxonomy can be stated.
A `Record` is an ordered list of key/value pairs (insertion order). -/
inductive JValue where
  | str (s : String)
  | int (n : Int)
  | bool (b : Bool)
  | arr (elems : List JValue)
  | record (entries : List (String × JValue))
  | null
  | nan
  | func

/-- Modelled from the spec (§3): a Document is the root Record. -/
def Document : Type := List (String × JValue)

/-- Modelled from the spec (§7 ERROR HANDLING DESIGN): the error taxonomy
`UnsupportedValueType` / `DuplicateKey` / `RecursionLimitExceeded`, each
carrying the key path at which serialization failed. -/
inductive SerError where
  | unsupportedValue (path : List String)
  | duplicateKey (path : List String)
  | recursionLimit (path : List String)
deriving DecidableEq

/-- Is this value a record (nested table)? -/
def JValue.isRecB : JValue → Bool
  | .record _ => true
  | _ => false

/-- The scalar-or-array entries of a record, in original relative order. -/
def nonRecEntries (es : List (String × JValue)) : List (String × JValue) :=
  es.filter (fun e => !e.2.isRecB)

/-- The keys of a record. -/
def keysOf (es : List (String × JValue)) : List String :=
  es.map Prod.fst

/-- Does this record have two entries with the same key? -/
def hasDupKeysB (es : List (String × JValue)) : Bool :=
  !(keysOf es).Nodup

/-- Little-endian decimal digits, with explicit descent fuel. -/
def natDigitsAux : Nat → Nat → List Nat
  | 0, _ => []
  | fuel + 1, m => if m = 0 then [] else (m % 10) :: natDigitsAux fuel (m / 10)

/-- Little-endian decimal digits of a natural number (empty for 0). -/
def natDigitsLE (m : Nat) : List Nat := natDigitsAux m m

/-- The character for one decimal digit. -/
def digitCh : Nat → Char
  | 0 => '0' | 1 => '1' | 2 => '2' | 3 => '3' | 4 => '4'
  | 5 => '5' | 6 => '6' | 7 => '7' | 8 => '8' | 9 => '9'
  | _ => '*'

/-- Decimal rendering of a natural number. -/
def natChars (m : Nat) : List Char :=
  if m = 0 then ['0'] else ((natDigitsLE m).map digitCh).reverse

/-- Decimal rendering of an integer. -/
def intChars (n : Int) : List Char :=
  if n < 0 then '-' :: natChars n.natAbs else natChars n.natAbs

/-- The character for one hexadecimal digit. -/
def hexDigitCh : Nat → Char
  | 0 => '0' | 1 => '1' | 2 => '2' | 3 => '3' | 4 => '4'
  | 5 => '5' | 6 => '6' | 7 => '7' | 8 => '8' | 9 => '9'
  | 10 => 'a' | 11 => 'b' | 12 => 'c' | 13 => 'd' | 14 => 'e' | 15 => 'f'
  | _ => '*'

/-- Modelled from the spec (§4.1 string escaping): escape one character of a
string value.  Quotes, backslashes, newlines, tabs, carriage returns get
two-character escapes; all other control characters get a `\u00XX` escape. -/
def escapeChar (c : Char) : List Char :=
  if c = '"' then ['\\', '"']
  else if c = '\\' then ['\\', '\\']
  else if c = '\n' then ['\\', 'n']
  else if c = '\t' then ['\\', 't']
  else if c = '\r' then ['\\', 'r']
  else if c.toNat < 32 ∨ c.toNat = 127 then
    '\\' :: 'u' :: '0' :: '0' :: hexDigitCh (c.toNat / 16) :: [hexDigitCh (c.toNat % 16)]
  else [c]

/-- Escape every character of a string body. -/
def escapeChars (cs : List Char) : List Char :=
  cs.flatMap escapeChar

/-- A quoted, escaped string literal. -/
def strLitChars (s : String) : List Char :=
  '"' :: escapeChars s.data ++ ['"']

/-- May this character appear in a bare (unquoted) key? -/
def isBareChar (c : Char) : Bool :=
  c.isAlphanum || c = '-' || c = '_'

/-- Is this key printable without quotes? -/
def bareKeyOK (k : String) : Bool :=
  !k.data.isEmpty && k.data.all isBareChar

/-- Render a key: bare when possible, else as a quoted string literal. -/
def keyChars (k : String) : List Char :=
  if bareKeyOK k then k.data else strLitChars k

/-- Left brace / right brace characters (for inline tables). -/
def lbrace : Char := Char.ofNat 123

def rbrace : Char := Char.ofNat 125

mutual
/-- Modelled from the spec (§4.1): render a value inline, on a single line.
Arrays are always rendered inline (`[ 1, 4 ]`); records occurring inside
arrays are rendered as inline tables.  Unsupported values (which serialization
rejects before printing) render as an unparseable placeholder.  -/
def printValue : JValue → List Char
  | .str s => strLitChars s
  | .int n => intChars n
  | .bool true => ['t', 'r', 'u', 'e']
  | .bool false => ['f', 'a', 'l', 's', 'e']
  | .arr [] => ['[', ']']
  | .arr (x :: xs) => '[' :: ' ' :: (printValue x ++ printValues xs) ++ [' ', ']']
  | .record [] => [lbrace, rbrace]
  | .record (e :: es) =>
      lbrace :: ' ' :: (printEntryInline e ++ printEntriesInline es) ++ [' ', rbrace]
  | .null => ['\x00']
  | .nan => ['\x00']
  | .func => ['\x00']

/-- Remaining array elements, each preceded by a comma separator. -/
def printValues : List JValue → List Char
  | [] => []
  | x :: xs => ',' :: ' ' :: printValue x ++ printValues xs

/-- One `key = value` item of an inline table. -/
def printEntryInline : String × JValue → List Char
  | (k, v) => keyChars k ++ (' ' :: '=' :: ' ' :: printValue v)

/-- Remaining inline-table items, each preceded by a comma separator. -/
def printEntriesInline : List (String × JValue) → List Char
  | [] => []
  | e :: es => ',' :: ' ' :: printEntryInline e ++ printEntriesInline es
end

/-- One `key = value` line (with trailing newline). -/
def printKVLine (e : String × JValue) : List Char :=
  keyChars e.1 ++ (' ' :: '=' :: ' ' :: printValue e.2) ++ ['\n']

/-- The `key = value` lines of a flat record, in order. -/
def printLines (es : List (String × JValue)) : List Char :=
  es.flatMap printKVLine

/-- A dotted section path, each segment rendered like a key. -/
def printPath : List String → List Char
  | [] => []
  | [k] => keyChars k
  | k :: ks => keyChars k ++ ('.' :: printPath ks)

/-- A section: blank line, bracketed dotted header, then its flat lines. -/
def printSec (sec : List String × List (String × JValue)) : List Char :=
  '\n' :: '[' :: printPath sec.1 ++ (']' :: '\n' :: printLines sec.2)

/-- The whole document text: root lines, then all sections in order. -/
def printFlat (sc : List (String × JValue)) (secs : List (List String × List (String × JValue))) :
    List Char :=
  printLines sc ++ secs.flatMap printSec

/-- Modelled from the spec (§5, §7): the implementer-chosen nesting-depth
bound beyond which serialization fails with `RecursionLimitExceeded`. -/
def maxDepth : Nat := 64

mutual
/-- Modelled from the spec (§4.1, §7): validate a value that will be rendered
inline (a scalar, an array, or a record inside an array).  Fails with
`UnsupportedValueType` at the offending key path for values outside the
supported union, with `DuplicateKey` for inline records with repeated keys,
and with `RecursionLimitExceeded` when nesting exceeds the fuel. -/
def checkInline (fuel : Nat) (p : List String) : JValue → Except SerError Unit
  | .str _ => .ok ()
  | .int _ => .ok ()
  | .bool _ => .ok ()
  | .null => .error (.unsupportedValue p)
  | .nan => .error (.unsupportedValue p)
  | .func => .error (.unsupportedValue p)
  | .arr xs =>
      if fuel = 0 then .error (.recursionLimit p)
      else checkInlineList (fuel - 1) p xs
  | .record es =>
      if fuel = 0 then .error (.recursionLimit p)
      else if hasDupKeysB es then .error (.duplicateKey p)
      else checkInlineEntries (fuel - 1) p es

/-- Validate every element of an array (the key path does not change:
array elements live under their array's key). -/
def checkInlineList (fuel : Nat) (p : List String) : List JValue → Except SerError Unit
  | [] => .ok ()
  | x :: xs => do
      checkInline fuel p x
      checkInlineList fuel p xs

/-- Validate every entry of an inline record, extending the key path. -/
def checkInlineEntries (fuel : Nat) (p : List String) :
    List (String × JValue) → Except SerError Unit
  | [] => .ok ()
  | (k, v) :: es => do
      checkInline fuel (p ++ [k]) v
      checkInlineEntries fuel p es
end

/-- Modelled from the spec (§4.1): one pass over a record's entries that
partitions them into scalar/array entries (kept, in order, as the record's
own lines) and nested-record entries (emitted, in order, as named sub-tables
after them); `chk` validates inline values and `child` flattens nested
records one level deeper.  Returns the record's own flat entries and the
list of (dotted path, flat entries) sections below it, in emission order. -/
def flattenList (chk : List String → JValue → Except SerError Unit)
    (child : List String → List (String × JValue) →
      Except SerError (List (String × JValue) × List (List String × List (String × JValue))))
    (p : List String) :
    List (String × JValue) →
      Except SerError (List (String × JValue) × List (List String × List (String × JValue)))
  | [] => .ok ([], [])
  | (k, v) :: rest =>
    match v with
    | JValue.record r => do
        let x ← child (p ++ [k]) r
        let y ← flattenList chk child p rest
        .ok (y.1, (p ++ [k], x.1) :: (x.2 ++ y.2))
    | _ => do
        chk (p ++ [k]) v
        let y ← flattenList chk child p rest
        .ok ((k, v) :: y.1, y.2)

/-- Modelled from the spec (§4.1, §7): flatten one record: fail fast on
exhausted nesting fuel or duplicate keys, then process its entries,
recursing one fuel level deeper into nested records. -/
def flattenRecord : Nat → List String → List (String × JValue) →
    Except SerError (List (String × JValue) × List (List String × List (String × JValue)))
  | 0, p, _ => .error (.recursionLimit p)
  | fuel + 1, p, es =>
      if hasDupKeysB es then .error (.duplicateKey p)
      else flattenList (checkInline fuel) (flattenRecord fuel) p es

/-- Modelled from the spec (§4.1 `serialize(document: Record) -> string`):
serialize a Document to configuration-markup text, or fail with one of the
spec's errors.  Pure and total. -/
def serializeDoc (d : Document) : Except SerError String :=
  match flattenRecord (maxDepth + 1) [] d with
  | .error e => .error e
  | .ok x => .ok (String.mk (printFlat x.1 x.2))

mutual
/-- The partition-and-reorder rule applied inside one record value. -/
def reorderVal : JValue → JValue
  | JValue.record r => JValue.record (nonRecEntries r ++ reorderRecs r)
  | v => v

/-- The record entries of a record, with the partition-and-reorder rule
applied recursively inside each: this is the shape that parsing the
serialized text reconstructs for the nested tables. -/
def reorderRecs : List (String × JValue) → List (String × JValue)
  | [] => []
  | (k, v) :: rest =>
      if v.isRecB then (k, reorderVal v) :: reorderRecs rest else reorderRecs rest
end

/-- The canonical reordering of a record: scalar/array entries first (in
original relative order), then the nested records (in original relative
order), recursively. -/
def reorderEntries (es : List (String × JValue)) : List (String × JValue) :=
  nonRecEntries es ++ reorderRecs es

mutual
/-- The sections contributed by one record value: its own header and flat
entries, then its subsections, depth first. -/
def secsOfVal : List String → JValue → List (List String × List (String × JValue))
  | p, JValue.record r => (p, nonRecEntries r) :: specSections p r
  | _, _ => []

/-- Specification-side description of the sections below a record: one
section per nested-record entry, in order, each followed by its own
subsections, depth first. -/
def specSections : List String → List (String × JValue) →
    List (List String × List (String × JValue))
  | _, [] => []
  | p, (k, v) :: rest => secsOfVal (p ++ [k]) v ++ specSections p rest
end

mutual
/-- Is this value inside the supported union, recursively? -/
def supportedB : JValue → Bool
  | .str _ => true
  | .int _ => true
  | .bool _ => true
  | .arr xs => supportedListB xs
  | .record es => supportedEntriesB es
  | .null => false
  | .nan => false
  | .func => false

def supportedListB : List JValue → Bool
  | [] => true
  | x :: xs => supportedB x && supportedListB xs

def supportedEntriesB : List (String × JValue) → Bool
  | [] => true
  | (_, v) :: es => supportedB v && supportedEntriesB es
end

mutual
/-- Are the keys of every record anywhere inside this value duplicate-free? -/
def nodupAllV : JValue → Bool
  | .arr xs => nodupAllL xs
  | .record es => !hasDupKeysB es && nodupAllE es
  | _ => true

def nodupAllL : List JValue → Bool
  | [] => true
  | x :: xs => nodupAllV x && nodupAllL xs

def nodupAllE : List (String × JValue) → Bool
  | [] => true
  | (_, v) :: es => nodupAllV v && nodupAllE es
end

/-- Are the keys of every record of this document duplicate-free? -/
def nodupAllDoc (d : Document) : Bool :=
  !hasDupKeysB d && nodupAllE d

mutual
/-- Nesting depth of a value: 0 for scalars, one more than the deepest
element or entry for arrays and records. -/
def depthV : JValue → Nat
  | .arr xs => 1 + depthL xs
  | .record es => 1 + depthE es
  | _ => 0

def depthL : List JValue → Nat
  | [] => 0
  | x :: xs => max (depthV x) (depthL xs)

def depthE : List (String × JValue) → Nat
  | [] => 0
  | (_, v) :: es => max (depthV v) (depthE es)
end


/-- Drop leading newline characters. -/
def skipNL : List Char → List Char
  | [] => []
  | c :: cs => if c = '\n' then skipNL cs else c :: cs

/-- Numeric value of a decimal digit character. -/
def digitVal (c : Char) : Nat := c.toNat - 48

/-- Parse a nonempty run of decimal digits into a natural number. -/
def parseNat (cs : List Char) : Option (Nat × List Char) :=
  let ds := cs.takeWhile Char.isDigit
  if ds.isEmpty then none
  else some (ds.foldl (fun a c => 10 * a + digitVal c) 0, cs.dropWhile Char.isDigit)

/-- Numeric value of a lowercase hexadecimal digit character. -/
def hexVal (c : Char) : Option Nat :=
  if c.isDigit then some (c.toNat - 48)
  else if 'a' ≤ c ∧ c ≤ 'f' then some (c.toNat - 87)
  else none

/-- Parse the character named by one escape code (after the backslash). -/
def parseEscape : List Char → Option (Char × List Char)
  | [] => none
  | c :: cs =>
    if c = 'n' then some ('\n', cs)
    else if c = 't' then some ('\t', cs)
    else if c = 'r' then some ('\r', cs)
    else if c = '"' then some ('"', cs)
    else if c = '\\' then some ('\\', cs)
    else if c = 'u' then
      match cs with
      | h1 :: h2 :: h3 :: h4 :: cs1 => do
          let a ← hexVal h1
          let b ← hexVal h2
          let c2 ← hexVal h3
          let d ← hexVal h4
          some (Char.ofNat (((a * 16 + b) * 16 + c2) * 16 + d), cs1)
      | _ => none
    else none

/-- Parse the body of a quoted string literal (after the opening quote),
up to and including the closing quote, undoing escapes. -/
def parseStrBody : Nat → List Char → Option (List Char × List Char)
  | 0, _ => none
  | fuel + 1, cs =>
    match cs with
    | [] => none
    | c :: cs1 =>
      if c = '"' then some ([], cs1)
      else if c = '\\' then do
        let (e, cs2) ← parseEscape cs1
        let (s, cs3) ← parseStrBody fuel cs2
        some (e :: s, cs3)
      else do
        let (s, cs2) ← parseStrBody fuel cs1
        some (c :: s, cs2)

/-- Parse a key: quoted if it starts with a quote, else a nonempty bare run. -/
def parseKey (fuel : Nat) (cs : List Char) : Option (String × List Char) :=
  match cs with
  | [] => none
  | c :: cs1 =>
    if c = '"' then (parseStrBody fuel cs1).map (fun x => (String.mk x.1, x.2))
    else
      let tk := (c :: cs1).takeWhile isBareChar
      if tk.isEmpty then none
      else some (String.mk tk, (c :: cs1).dropWhile isBareChar)

mutual
/-- Parse one inline value: string, integer, boolean, array or inline table. -/
def parseValue : Nat → List Char → Option (JValue × List Char)
  | 0, _ => none
  | fuel + 1, cs =>
    match cs with
    | [] => none
    | c :: cs1 =>
      if c = '"' then
        (parseStrBody fuel cs1).map (fun x => (JValue.str (String.mk x.1), x.2))
      else if c = '[' then
        if cs1.take 1 = [']'] then some (.arr [], cs1.drop 1)
        else if cs1.take 1 = [' '] then
          (parseArrElems fuel (cs1.drop 1)).map (fun x => (JValue.arr x.1, x.2))
        else none
      else if c = lbrace then
        if cs1.take 1 = [rbrace] then some (.record [], cs1.drop 1)
        else if cs1.take 1 = [' '] then
          (parseInlineKVs fuel (cs1.drop 1)).map (fun x => (JValue.record x.1, x.2))
        else none
      else if c = 't' then
        if cs1.take 3 = ['r', 'u', 'e'] then some (.bool true, cs1.drop 3) else none
      else if c = 'f' then
        if cs1.take 4 = ['a', 'l', 's', 'e'] then some (.bool false, cs1.drop 4) else none
      else if c = '-' then
        (parseNat cs1).map (fun x => (JValue.int (-(x.1 : Int)), x.2))
      else if c.isDigit then
        (parseNat (c :: cs1)).map (fun x => (JValue.int (x.1 : Int), x.2))
      else none

/-- Parse the elements of a nonempty inline array (after the opening
bracket and space), up to and including the closing space-bracket. -/
def parseArrElems : Nat → List Char → Option (List JValue × List Char)
  | 0, _ => none
  | fuel + 1, cs => do
    let (v, cs1) ← parseValue fuel cs
    match cs1 with
    | c :: c2 :: cs2 =>
      if c = ',' ∧ c2 = ' ' then do
        let (xs, r) ← parseArrElems fuel cs2
        some (v :: xs, r)
      else if c = ' ' ∧ c2 = ']' then some ([v], cs2)
      else none
    | _ => none

/-- Parse the items of a nonempty inline table (after the opening brace and
space), up to and including the closing space-brace. -/
def parseInlineKVs : Nat → List Char →
    Option (List (String × JValue) × List Char)
  | 0, _ => none
  | fuel + 1, cs => do
    let (k, cs1) ← parseKey fuel cs
    match cs1 with
    | c1 :: c2 :: c3 :: cs2 =>
      if c1 = ' ' ∧ c2 = '=' ∧ c3 = ' ' then do
        let (v, cs3) ← parseValue fuel cs2
        match cs3 with
        | d1 :: d2 :: cs4 =>
          if d1 = ',' ∧ d2 = ' ' then do
            let (es, r) ← parseInlineKVs fuel cs4
            some ((k, v) :: es, r)
          else if d1 = ' ' ∧ d2 = rbrace then some ([(k, v)], cs4)
          else none
        | _ => none
      else none
    | _ => none
end

/-- Parse one `key = value` line, consuming the trailing newline (or end of
input). -/
def parseKVLine (fuel : Nat) (cs : List Char) :
    Option ((String × JValue) × List Char) := do
  let (k, cs1) ← parseKey fuel cs
  match cs1 with
  | c1 :: c2 :: c3 :: cs2 =>
    if c1 = ' ' ∧ c2 = '=' ∧ c3 = ' ' then do
      let (v, cs3) ← parseValue fuel cs2
      match cs3 with
      | [] => some ((k, v), [])
      | d :: r => if d = '\n' then some ((k, v), r) else none
    else none
  | _ => none

/-- Parse consecutive `key = value` lines, stopping at end of input or at the
opening bracket of the next section header. -/
def scanKVs : Nat → List Char →
    Option (List (String × JValue) × List Char)
  | 0, _ => none
  | fuel + 1, cs =>
    match skipNL cs with
    | [] => some ([], [])
    | c :: r =>
      if c = '[' then some ([], c :: r)
      else do
        let (e, r1) ← parseKVLine (fuel + 1) (c :: r)
        let (es, r2) ← scanKVs fuel r1
        some (e :: es, r2)

/-- Parse a dotted section path (after the opening bracket), up to and
including the closing bracket. -/
def parsePath : Nat → List Char → Option (List String × List Char)
  | 0, _ => none
  | fuel + 1, cs => do
    let (k, cs1) ← parseKey (fuel + 1) cs
    match cs1 with
    | [] => none
    | c :: cs2 =>
      if c = '.' then do
        let (ks, r) ← parsePath fuel cs2
        some (k :: ks, r)
      else if c = ']' then some ([k], cs2)
      else none

/-- Parse all remaining sections: a bracketed header line, then that
section's `key = value` lines, repeatedly until end of input. -/
def scanSecs : Nat → List Char →
    Option (List (List String × List (String × JValue)))
  | 0, _ => none
  | fuel + 1, cs =>
    match skipNL cs with
    | [] => some []
    | c :: cs1 =>
      if c = '[' then do
        let (q, cs2) ← parsePath (fuel + 1) cs1
        match cs2 with
        | [] => none
        | c2 :: cs3 =>
          if c2 = '\n' then do
            let (es, cs4) ← scanKVs (fuel + 1) cs3
            let secs ← scanSecs fuel cs4
            some ((q, es) :: secs)
          else none
      else none

/-- Scan a whole document text into its flat shape: the root record's lines,
then the list of (path, lines) sections in textual order. -/
def scanFlat (fuel : Nat) (cs : List Char) :
    Option (List (String × JValue) × List (List String × List (String × JValue))) := do
  let (sc, r) ← scanKVs fuel cs
  let secs ← scanSecs fuel r
  some (sc, secs)

/-- If `q` extends `p` by exactly one segment, return that segment. -/
def childKey (p q : List String) : Option String :=
  match q.reverse with
  | [] => none
  | k :: t => if t.reverse = p then some k else none

/-- Rebuild the record tree at path `p` from the flat section list: consume
the sections that extend `p` by one segment (each followed, depth first, by
its own subsections), appending each as a nested record entry; stop at the
first section that does not, returning it and everything after it. -/
def rebuildAt : Nat → List String → List (String × JValue) →
    List (List String × List (String × JValue)) →
    List (String × JValue) × List (List String × List (String × JValue))
  | 0, _, own, secs => (own, secs)
  | fuel + 1, p, own, secs =>
    match secs with
    | [] => (own, [])
    | (q, es) :: rest =>
      match childKey p q with
      | none => (own, (q, es) :: rest)
      | some k =>
        let x := rebuildAt fuel q es rest
        rebuildAt fuel p (own ++ [(k, JValue.record x.1)]) x.2

/-- Modelled from the spec (§3 round-trip property): parse a
configuration-markup text back into a Document, or fail. -/
def parse (s : String) : Option Document :=
  match scanFlat (2 * s.data.length + 40) s.data with
  | none => none
  | some (sc, secs) =>
    match rebuildAt (secs.length + 1) [] sc secs with
    | (es, []) => some es
    | _ => none

/-- Nesting depth of a document (its root record's entries). -/
def depthDoc (d : Document) : Nat := depthE d

/-- Does `cs` fail to start with a character satisfying `p`? -/
def headNotB (p : Char → Bool) : List Char → Bool
  | [] => true
  | c :: _ => !p c

mutual
/-- Key-uniqueness of every record below this value that becomes a section. -/
def nodupSecV : JValue → Bool
  | JValue.record r => !hasDupKeysB r && nodupSecB r
  | _ => true

/-- Key-uniqueness of every nested-record entry below these entries
(the records that become sections). -/
def nodupSecB : List (String × JValue) → Bool
  | [] => true
  | (_, v) :: rest => nodupSecV v && nodupSecB rest
end

/-- Key-uniqueness of the whole document tree of sections. -/
def nodupSecDoc (d : Document) : Bool :=
  !hasDupKeysB d && nodupSecB d

mutual
/-- Is some value outside the supported union reachable from this value by
following the key path `p` (descending transparently through arrays)? -/
def unsupAtV : JValue → List String → Bool
  | .null, [] => true
  | .nan, [] => true
  | .func, [] => true
  | .arr xs, p => unsupAtL xs p
  | .record es, k :: t => unsupAtE es k t
  | _, _ => false

def unsupAtL : List JValue → List String → Bool
  | [], _ => false
  | x :: xs, p => unsupAtV x p || unsupAtL xs p

def unsupAtE : List (String × JValue) → String → List String → Bool
  | [], _, _ => false
  | (k1, v) :: es, k, t => (decide (k1 = k) && unsupAtV v t) || unsupAtE es k t
end

/-- Is some unsupported value reachable in the document at key path `p`? -/
def unsupAtDoc (d : Document) (p : List String) : Bool :=
  unsupAtV (JValue.record d) p

/-- Statement of printer/parser inversion for one inline value: parsing the
printed form of a supported value consumes exactly it (given enough fuel and
a following character that is not a digit). -/
def PV1 (v : JValue) : Prop :=
  supportedB v = true → ∀ rest fuel, headNotB Char.isDigit rest = true →
    2 * (printValue v).length + 2 * rest.length + 10 ≤ fuel →
    parseValue fuel (printValue v ++ rest) = some (v, rest)

/-- Statement of printer/parser inversion for a nonempty array-element list. -/
def PAE : List JValue → Prop
  | [] => True
  | x :: xs => supportedListB (x :: xs) = true → ∀ rest fuel,
      2 * (printValue x ++ printValues xs).length + 2 * rest.length + 16 ≤ fuel →
      parseArrElems fuel
        (printValue x ++ printValues xs ++ (' ' :: ']' :: rest)) = some (x :: xs, rest)

/-- Statement of printer/parser inversion for a nonempty inline-table item
list. -/
def PIE : List (String × JValue) → Prop
  | [] => True
  | e :: es => supportedEntriesB (e :: es) = true → ∀ rest fuel,
      2 * (printEntryInline e ++ printEntriesInline es).length + 2 * rest.length + 16 ≤ fuel →
      parseInlineKVs fuel
        (printEntryInline e ++ printEntriesInline es ++ (' ' :: rbrace :: rest)) =
        some (e :: es, rest)

/-- The entries of a flat record are parseable: every value is supported
(in particular none is a placeholder-printed unsupported value). -/
def flatOKB (es : List (String × JValue)) : Bool :=
  es.all (fun e => supportedB e.2)

/-- The flat sections are parseable: nonempty paths and parseable entries. -/
def secsOKB (secs : List (List String × List (String × JValue))) : Bool :=
  secs.all (fun sec => !sec.1.isEmpty && flatOKB sec.2)

/-- The motivating example Document of the spec (§8 end-to-end scenario). -/
def exampleDoc : Document := [
  ("extends", .str "eslint:recommended"),
  ("rules", .record [
    ("consistent-return", .int 2),
    ("indent", .arr [.int 1, .int 4]),
    ("no-else-return", .int 1),
    ("semi", .arr [.int 1, .str "always"]),
    ("space-unary-ops", .int 2)])]

/-- The configuration-markup text of the motivating example (§8, and the
blog post's expected TOML output): the top-level scalar line first, then the
`[rules]` section with its five lines in original insertion order. -/
def exampleOut : String :=
  "extends = \"eslint:recommended\"\n\n[rules]\nconsistent-return = 2\nindent = [ 1, 4 ]\nno-else-return = 1\nsemi = [ 1, \"always\" ]\nspace-unary-ops = 2\n"

/-- A document whose only nesting is a chain of records of the given depth,
used to exercise the recursion limit. -/
def deepDoc : Nat → Document
  | 0 => [("k", .int 1)]
  | n + 1 => [("k", .record (deepDoc n))]

/-- The external `json2toml` conversion routine called by
`src/formatter.js`; modelled from the spec as the ResultSerializer. -/
def json2tomlConverter : Document → Except SerError String := serializeDoc

/-- `formatTOML` from `src/formatter.js` (lines 10-13): passes its results
argument to the converter and returns the converted string unchanged. -/
def formatTOML (results : Document) : Except SerError String :=
  json2tomlConverter results

/-- Invoking the exported formatter the way the external rule-evaluation
tool does (`module.exports = formatTOML`, called with a results argument
and an optional context argument): the declared function has a single
parameter, so the extra argument is dropped at the call boundary. -/
def applyFormatter {α : Type} (results : Document) (_context : α) :
    Except SerError String :=
  formatTOML results

/-! ### Basic lemmas: characters, digit strings, bare keys -/

theorem skipNL_cons_ne {c : Char} {cs : List Char} (h : ¬c = '\n') :
    skipNL (c :: cs) = c :: cs := by
  simp [skipNL, h]

theorem skipNL_idem (cs : List Char) : skipNL (skipNL cs) = skipNL cs := by
  induction cs with
  | nil => simp [skipNL]
  | cons c cs ih =>
      by_cases h : c = '\n'
      · simp [skipNL, h, ih]
      · simp [skipNL, h]

theorem takeWhile_app {p : Char → Bool} :
    ∀ (xs ys : List Char), (∀ x ∈ xs, p x = true) → headNotB p ys = true →
      (xs ++ ys).takeWhile p = xs ∧ (xs ++ ys).dropWhile p = ys := by
  intro xs
  induction xs with
  | nil =>
      intro ys _ hy
      match ys with
      | [] => simp
      | y :: ys' =>
          simp only [headNotB, Bool.not_eq_true'] at hy
          simp [List.takeWhile_cons, List.dropWhile_cons, hy]
  | cons x xs ih =>
      intro ys hx hy
      have hpx : p x = true := hx x (by simp)
      have := ih ys (fun a ha => hx a (by simp [ha])) hy
      simp [List.takeWhile_cons, List.dropWhile_cons, hpx, this.1, this.2]

theorem digitCh_isDigit {d : Nat} (h : d < 10) : (digitCh d).isDigit = true := by
  interval_cases d <;> decide

theorem digitVal_digitCh {d : Nat} (h : d < 10) : digitVal (digitCh d) = d := by
  interval_cases d <;> decide

theorem natDigitsAux_congr : ∀ (f1 f2 m : Nat), m ≤ f1 → m ≤ f2 →
    natDigitsAux f1 m = natDigitsAux f2 m := by
  intro f1
  induction f1 with
  | zero =>
      intro f2 m h1 _
      have : m = 0 := by omega
      subst this
      cases f2 <;> simp [natDigitsAux]
  | succ f1 ih =>
      intro f2 m h1 h2
      by_cases hm : m = 0
      · subst hm
        cases f2 <;> simp [natDigitsAux]
      · obtain ⟨f2p, rfl⟩ : ∃ f2p, f2 = f2p + 1 := ⟨f2 - 1, by omega⟩
        rw [natDigitsAux, natDigitsAux, if_neg hm, if_neg hm]
        have hlt : m / 10 < m := Nat.div_lt_self (Nat.pos_of_ne_zero hm) (by omega)
        rw [ih f2p (m / 10) (by omega) (by omega)]

theorem natDigitsLE_eq (m : Nat) :
    natDigitsLE m = if m = 0 then [] else (m % 10) :: natDigitsLE (m / 10) := by
  by_cases h : m = 0
  · subst h; simp [natDigitsLE, natDigitsAux]
  · rw [if_neg h, natDigitsLE, natDigitsLE]
    obtain ⟨f, rfl⟩ : ∃ f, m = f + 1 := ⟨m - 1, by omega⟩
    rw [natDigitsAux, if_neg h]
    have hlt : (f + 1) / 10 < f + 1 := Nat.div_lt_self (by omega) (by omega)
    rw [natDigitsAux_congr f ((f + 1) / 10) ((f + 1) / 10) (by omega) (le_refl _)]

theorem natDigitsLE_lt10 : ∀ m, ∀ d ∈ natDigitsLE m, d < 10 := by
  intro m
  induction m using Nat.strong_induction_on with
  | _ m ih =>
      by_cases h : m = 0
      · subst h; intro d hd; rw [natDigitsLE_eq] at hd; simp at hd
      · intro d hd
        rw [natDigitsLE_eq, if_neg h] at hd
        rcases List.mem_cons.mp hd with h1 | h1
        · subst h1; omega
        · exact ih (m / 10) (Nat.div_lt_self (Nat.pos_of_ne_zero h) (by omega)) d h1

theorem natChars_ne_nil (m : Nat) : natChars m ≠ [] := by
  by_cases h : m = 0
  · subst h; simp [natChars]
  · rw [natChars, if_neg h]
    intro hc
    rw [List.reverse_eq_nil_iff, List.map_eq_nil_iff] at hc
    rw [natDigitsLE_eq, if_neg h] at hc
    simp at hc

theorem natChars_all_digit (m : Nat) : ∀ c ∈ natChars m, c.isDigit = true := by
  by_cases h : m = 0
  · subst h; intro c hc; simp [natChars] at hc; subst hc; decide
  · rw [natChars, if_neg h]
    intro c hc
    rw [List.mem_reverse, List.mem_map] at hc
    obtain ⟨d, hd, rfl⟩ := hc
    exact digitCh_isDigit (natDigitsLE_lt10 m d hd)

theorem foldl_natDigits : ∀ m a,
    (((natDigitsLE m).map digitCh).reverse).foldl (fun a c => 10 * a + digitVal c) a =
      a * 10 ^ (natDigitsLE m).length + m := by
  intro m
  induction m using Nat.strong_induction_on with
  | _ m ih =>
      intro a
      by_cases h : m = 0
      · subst h; rw [natDigitsLE_eq]; simp
      · rw [natDigitsLE_eq, if_neg h]
        have hd : m / 10 < m := Nat.div_lt_self (Nat.pos_of_ne_zero h) (by omega)
        simp only [List.map_cons, List.reverse_cons, List.foldl_append, List.foldl_cons,
          List.foldl_nil, List.length_cons]
        rw [ih (m / 10) hd a, digitVal_digitCh (by omega)]
        rw [pow_succ]
        have := Nat.div_add_mod m 10
        ring_nf
        omega

theorem parseNat_natChars {m : Nat} {rest : List Char}
    (h : headNotB Char.isDigit rest = true) :
    parseNat (natChars m ++ rest) = some (m, rest) := by
  have hta := takeWhile_app (natChars m) rest (natChars_all_digit m) h
  rw [parseNat]
  simp only [hta.1, hta.2]
  rw [if_neg (by simp [List.isEmpty_iff, natChars_ne_nil m])]
  by_cases hm : m = 0
  · subst hm; simp [natChars, digitVal]
  · rw [natChars, if_neg hm]
    rw [foldl_natDigits m 0]
    simp
/-! ### String-literal and key inversion -/

theorem isDigit_excl {c : Char} (h : c.isDigit = true) :
    ¬c = '"' ∧ ¬c = '[' ∧ ¬c = lbrace ∧ ¬c = 't' ∧ ¬c = 'f' ∧ ¬c = '-' ∧
      ¬c = '\n' ∧ ¬c = '\\' := by
  refine ⟨?_, ?_, ?_, ?_, ?_, ?_, ?_, ?_⟩ <;>
    · intro e; subst e; revert h; decide

theorem isBare_excl {c : Char} (h : isBareChar c = true) :
    ¬c = '"' ∧ ¬c = '\n' ∧ ¬c = '[' ∧ ¬c = '.' ∧ ¬c = ']' ∧ ¬c = ' ' ∧
      ¬c = '=' ∧ ¬c = ',' ∧ ¬c = rbrace ∧ ¬c = '\\' := by
  refine ⟨?_, ?_, ?_, ?_, ?_, ?_, ?_, ?_, ?_, ?_⟩ <;>
    · intro e; subst e; revert h; decide

theorem hexVal_hexDigitCh {d : Nat} (h : d < 16) : hexVal (hexDigitCh d) = some d := by
  interval_cases d <;> decide

theorem escapeChar_length_pos (c : Char) : 1 ≤ (escapeChar c).length := by
  rw [escapeChar]
  split_ifs <;> simp

theorem parseEscape_u (c : Char) (hlt : c.toNat < 256) (X : List Char) :
    parseEscape ('u' :: '0' :: '0' :: hexDigitCh (c.toNat / 16) ::
      hexDigitCh (c.toNat % 16) :: X) = some (c, X) := by
  have e1 : hexVal '0' = some 0 := by decide
  have e2 : hexVal (hexDigitCh (c.toNat / 16)) = some (c.toNat / 16) :=
    hexVal_hexDigitCh (by omega)
  have e3 : hexVal (hexDigitCh (c.toNat % 16)) = some (c.toNat % 16) :=
    hexVal_hexDigitCh (by omega)
  rw [parseEscape.eq_def]
  try dsimp only
  rw [if_neg (by decide : ¬('u' : Char) = 'n'),
    if_neg (by decide : ¬('u' : Char) = 't'),
    if_neg (by decide : ¬('u' : Char) = 'r'),
    if_neg (by decide : ¬('u' : Char) = '"'),
    if_neg (by decide : ¬('u' : Char) = '\\'), if_pos rfl]
  try dsimp only
  rw [e1, e2, e3]
  simp only [Option.bind_eq_bind, Option.some_bind]
  have e4 : (((((0 : Nat) * 16 + 0) * 16 + c.toNat / 16) * 16 +
      c.toNat % 16)) = c.toNat := by omega
  rw [e4, Char.ofNat_toNat]

theorem parseStrBody_esc (c : Char) (code : List Char) (s rest : List Char) (fuel : Nat)
    (hesc : ∀ X, parseEscape (code ++ X) = some (c, X))
    (hih : parseStrBody fuel (escapeChars s ++ '"' :: rest) = some (s, rest)) :
    parseStrBody (fuel + 1) (('\\' :: code) ++ (escapeChars s ++ '"' :: rest)) =
      some (c :: s, rest) := by
  simp only [List.cons_append]
  rw [parseStrBody.eq_3]
  simp only [if_neg (by decide : ¬('\\' : Char) = '"'), if_true,
    reduceIte]
  rw [hesc (escapeChars s ++ '"' :: rest)]
  simp only [Option.bind_eq_bind, Option.some_bind]
  rw [hih]
  rfl

theorem parseStrBody_print : ∀ (s rest : List Char) (fuel : Nat),
    (escapeChars s).length + 1 ≤ fuel →
    parseStrBody fuel (escapeChars s ++ '"' :: rest) = some (s, rest) := by
  intro s
  induction s with
  | nil =>
      intro rest fuel hf
      obtain ⟨f, rfl⟩ : ∃ f, fuel = f + 1 := ⟨fuel - 1, by omega⟩
      simp only [escapeChars, List.flatMap_nil, List.nil_append]
      rw [parseStrBody.eq_3]
      simp
  | cons c s ih =>
      intro rest fuel hf
      have hech : escapeChars (c :: s) = escapeChar c ++ escapeChars s := by
        simp [escapeChars]
      rw [hech] at hf ⊢
      have hlen : (escapeChar c).length + (escapeChars s).length + 1 ≤ fuel := by
        simp only [List.length_append] at hf; omega
      have hlc := escapeChar_length_pos c
      obtain ⟨f, rfl⟩ : ∃ f, fuel = f + 1 := ⟨fuel - 1, by omega⟩
      by_cases h1 : c = '"'
      · subst h1
        have hc : escapeChar '"' = '\\' :: ['"'] := by decide
        rw [hc] at hlen ⊢
        rw [List.append_assoc]
        exact parseStrBody_esc _ _ s rest f (fun X => by simp [parseEscape])
          (ih rest f (by simp at hlen; omega))
      · by_cases h2 : c = '\\'
        · subst h2
          have hc : escapeChar '\\' = '\\' :: ['\\'] := by decide
          rw [hc] at hlen ⊢
          rw [List.append_assoc]
          exact parseStrBody_esc _ _ s rest f (fun X => by simp [parseEscape])
            (ih rest f (by simp at hlen; omega))
        · by_cases h3 : c = '\n'
          · subst h3
            have hc : escapeChar '\n' = '\\' :: ['n'] := by decide
            rw [hc] at hlen ⊢
            rw [List.append_assoc]
            exact parseStrBody_esc _ _ s rest f (fun X => by simp [parseEscape])
              (ih rest f (by simp at hlen; omega))
          · by_cases h4 : c = '\t'
            · subst h4
              have hc : escapeChar '\t' = '\\' :: ['t'] := by decide
              rw [hc] at hlen ⊢
              rw [List.append_assoc]
              exact parseStrBody_esc _ _ s rest f (fun X => by simp [parseEscape])
                (ih rest f (by simp at hlen; omega))
            · by_cases h5 : c = '\r'
              · subst h5
                have hc : escapeChar '\r' = '\\' :: ['r'] := by decide
                rw [hc] at hlen ⊢
                rw [List.append_assoc]
                exact parseStrBody_esc _ _ s rest f (fun X => by simp [parseEscape])
                  (ih rest f (by simp at hlen; omega))
              · by_cases h6 : c.toNat < 32 ∨ c.toNat = 127
                · -- control character: backslash-u escape
                  have hc : escapeChar c =
                      '\\' :: ('u' :: '0' :: '0' :: hexDigitCh (c.toNat / 16) ::
                        [hexDigitCh (c.toNat % 16)]) := by
                    rw [escapeChar, if_neg h1, if_neg h2, if_neg h3, if_neg h4, if_neg h5,
                      if_pos h6]
                  rw [hc] at hlen ⊢
                  rw [List.append_assoc]
                  have hlt : c.toNat < 256 := by rcases h6 with h6 | h6 <;> omega
                  refine parseStrBody_esc _ _ s rest f (fun X => ?_)
                    (ih rest f (by simp at hlen; omega))
                  simpa using parseEscape_u c hlt X
                · -- ordinary character, printed as itself
                  have hc : escapeChar c = [c] := by
                    rw [escapeChar, if_neg h1, if_neg h2, if_neg h3, if_neg h4, if_neg h5,
                      if_neg h6]
                  rw [hc] at hlen ⊢
                  rw [List.singleton_append, List.cons_append, parseStrBody.eq_3]
                  rw [if_neg h1, if_neg h2]
                  rw [ih rest f (by simp at hlen; omega)]
                  simp

theorem strLit_print (s : String) (rest : List Char) (fuel : Nat)
    (hf : (strLitChars s).length + 1 ≤ fuel) :
    parseStrBody fuel (escapeChars s.data ++ '"' :: rest) = some (s.data, rest) := by
  apply parseStrBody_print
  simp only [strLitChars, List.length_cons, List.length_append] at hf
  omega

theorem mk_data (s : String) : String.mk s.data = s := rfl

theorem keyChars_ne_nil (k : String) : keyChars k ≠ [] := by
  rw [keyChars]
  split_ifs with h
  · rw [bareKeyOK] at h
    simp only [Bool.and_eq_true, Bool.not_eq_true', List.isEmpty_eq_false] at h
    exact h.1
  · simp [strLitChars]

theorem keyChars_head (k : String) :
    ∃ c cs, keyChars k = c :: cs ∧ ¬c = '\n' ∧ ¬c = '[' := by
  rw [keyChars]
  split_ifs with h
  · rw [bareKeyOK] at h
    simp only [Bool.and_eq_true, Bool.not_eq_true'] at h
    match hk : k.data with
    | [] => rw [hk] at h; simp at h
    | c :: cs =>
        have hb : isBareChar c = true := by
          have := h.2; rw [hk] at this; simp only [List.all_cons, Bool.and_eq_true] at this
          exact this.1
        exact ⟨c, cs, rfl, (isBare_excl hb).2.1, (isBare_excl hb).2.2.1⟩
  · exact ⟨'"', _, rfl, by decide, by decide⟩

theorem parseKey_print (k : String) (rest : List Char) (fuel : Nat)
    (hrest : headNotB isBareChar rest = true)
    (hf : (keyChars k).length + rest.length + 1 ≤ fuel) :
    parseKey fuel (keyChars k ++ rest) = some (k, rest) := by
  rw [keyChars]
  split_ifs with h
  · -- bare key
    rw [bareKeyOK] at h
    simp only [Bool.and_eq_true, Bool.not_eq_true'] at h
    have hall : ∀ c ∈ k.data, isBareChar c = true := by
      intro c hc
      exact List.all_eq_true.mp h.2 c hc
    match hk : k.data with
    | [] => rw [hk] at h; simp at h
    | c :: cs =>
        have hta := takeWhile_app (c :: cs) rest (by rw [← hk]; exact hall) hrest
        have hbc : isBareChar c = true := by
          apply hall; rw [hk]; simp
        rw [List.cons_append, parseKey.eq_def]
        dsimp only
        rw [if_neg (isBare_excl hbc).1]
        rw [← List.cons_append, hta.1, hta.2]
        rw [if_neg (by simp)]
        rw [← hk, mk_data]
  · -- quoted key
    rw [strLitChars, List.cons_append, List.cons_append, parseKey.eq_def]
    dsimp only
    rw [if_pos rfl]
    rw [List.append_assoc, List.singleton_append]
    have hb : (strLitChars k).length + 1 ≤ fuel := by
      rw [keyChars, if_neg h] at hf
      omega
    rw [strLit_print k rest fuel hb]
    simp [mk_data]
theorem printValue_length_pos (v : JValue) : 1 ≤ (printValue v).length := by
  cases v with
  | str s => simp [printValue, strLitChars]
  | int n =>
      rw [printValue]
      rw [intChars]
      split_ifs
      · simp
      · have := natChars_ne_nil n.natAbs
        cases h : natChars n.natAbs with
        | nil => exact absurd h this
        | cons a l => simp [h]
  | bool b => cases b <;> simp [printValue]
  | arr xs => cases xs <;> simp [printValue]
  | record es => cases es <;> simp [printValue]
  | null => simp [printValue]
  | nan => simp [printValue]
  | func => simp [printValue]

theorem parseArrElems_step (x : JValue) (xs : List JValue) (rest : List Char) (fuel : Nat)
    (hx : PV1 x) (hxs : PAE xs)
    (hsx : supportedB x = true) (hsxs : supportedListB xs = true)
    (hf : 2 * (printValue x ++ printValues xs).length + 2 * rest.length + 16 ≤ fuel) :
    parseArrElems fuel (printValue x ++ printValues xs ++ (' ' :: ']' :: rest)) =
      some (x :: xs, rest) := by
  simp only [List.length_append] at hf
  obtain ⟨f, rfl⟩ : ∃ f, fuel = f + 1 := ⟨fuel - 1, by omega⟩
  rw [parseArrElems.eq_2]
  cases xs with
  | nil =>
      have hval := hx hsx (' ' :: ']' :: rest) f (by simp [headNotB])
        (by simp only [printValues, List.length_nil] at hf
            simp only [List.length_cons]
            omega)
      simp only [printValues, List.append_nil, List.nil_append]
      rw [hval]
      simp
  | cons y ys =>
      have hval := hx hsx (printValues (y :: ys) ++ (' ' :: ']' :: rest)) f
        (by simp [printValues, headNotB])
        (by simp only [List.length_append, List.length_cons]
            omega)
      rw [List.append_assoc, hval]
      simp only [Option.bind_eq_bind, Option.some_bind]
      simp only [printValues, List.cons_append]
      simp only [and_self, if_true, reduceIte]
      have hrec : parseArrElems f
          (printValue y ++ printValues ys ++ (' ' :: ']' :: rest)) =
          some (y :: ys, rest) := by
        apply hxs hsxs
        simp only [List.length_append]
        simp only [printValues, List.length_cons, List.length_append] at hf
        omega
      rw [hrec]
      simp
theorem parseInlineKVs_step (k : String) (v : JValue) (es : List (String × JValue))
    (rest : List Char) (fuel : Nat)
    (hv : PV1 v) (hes : PIE es)
    (hsv : supportedB v = true) (hses : supportedEntriesB es = true)
    (hf : 2 * (printEntryInline (k, v) ++ printEntriesInline es).length +
      2 * rest.length + 16 ≤ fuel) :
    parseInlineKVs fuel
      (printEntryInline (k, v) ++ printEntriesInline es ++ (' ' :: rbrace :: rest)) =
      some ((k, v) :: es, rest) := by
  have hpe : printEntryInline (k, v) = keyChars k ++ (' ' :: '=' :: ' ' :: printValue v) := by
    simp [printEntryInline]
  rw [hpe] at hf ⊢
  simp only [List.length_append, List.length_cons] at hf
  obtain ⟨f, rfl⟩ : ∃ f, fuel = f + 1 := ⟨fuel - 1, by omega⟩
  rw [parseInlineKVs.eq_2]
  have hkey := parseKey_print k
    (' ' :: '=' :: ' ' :: (printValue v ++ (printEntriesInline es ++ (' ' :: rbrace :: rest))))
    f (by simp [headNotB, isBareChar])
    (by simp only [List.length_cons, List.length_append]; omega)
  rw [List.append_assoc, List.append_assoc]
  simp only [List.cons_append] at hkey ⊢
  rw [hkey]
  simp only [Option.bind_eq_bind, Option.some_bind]
  simp only [and_self, if_true, reduceIte]
  cases es with
  | nil =>
      have hval := hv hsv (' ' :: rbrace :: rest) f
        (by simp [headNotB])
        (by simp only [printEntriesInline, List.length_nil] at hf
            simp only [List.length_cons]
            omega)
      simp only [printEntriesInline, List.nil_append]
      rw [hval]
      simp only [Option.bind_eq_bind, Option.some_bind]
      simp
  | cons e2 es2 =>
      have hval := hv hsv
        (printEntriesInline (e2 :: es2) ++ (' ' :: rbrace :: rest)) f
        (by simp [printEntriesInline, headNotB])
        (by simp only [List.length_append, List.length_cons]
            omega)
      rw [hval]
      simp only [Option.bind_eq_bind, Option.some_bind]
      simp only [printEntriesInline, List.cons_append]
      simp only [and_self, if_true, reduceIte]
      have hrec : parseInlineKVs f
          (printEntryInline e2 ++ printEntriesInline es2 ++ (' ' :: rbrace :: rest)) =
          some (e2 :: es2, rest) := by
        apply hes hses
        simp only [List.length_append]
        simp only [printEntriesInline, List.length_cons, List.length_append] at hf
        omega
      rw [hrec]
      simp
theorem parseValue_print : ∀ v : JValue, PV1 v := by
  intro v
  refine printValue.induct PV1 PIE (fun e => PV1 e.2) PAE ?_ ?_ ?_ ?_ ?_ ?_ ?_ ?_ ?_ ?_
    ?_ ?_ ?_ ?_ ?_ ?_ v
  · -- string
    intro s _ rest fuel hrest hf
    simp only [printValue, strLitChars, List.length_cons, List.length_append] at hf
    simp only [printValue, strLitChars, List.cons_append, List.append_assoc,
      List.singleton_append, List.nil_append]
    obtain ⟨f, rfl⟩ : ∃ f, fuel = f + 1 := ⟨fuel - 1, by omega⟩
    rw [parseValue.eq_3]
    rw [if_pos rfl]
    rw [parseStrBody_print s.data rest f (by omega)]
    simp [mk_data]
  · -- integer
    intro n _ rest fuel hrest hf
    simp only [printValue] at hf ⊢
    by_cases hn : n < 0
    · rw [intChars, if_pos hn] at hf ⊢
      simp only [List.length_cons] at hf
      obtain ⟨f, rfl⟩ : ∃ f, fuel = f + 1 := ⟨fuel - 1, by omega⟩
      rw [List.cons_append, parseValue.eq_3]
      rw [if_neg (by decide), if_neg (by decide), if_neg (by decide), if_neg (by decide),
        if_neg (by decide), if_pos rfl]
      rw [parseNat_natChars hrest]
      have he : -((n.natAbs : Int)) = n := by omega
      simp only [Option.map_some']
      rw [he]
    · rw [intChars, if_neg hn] at hf ⊢
      obtain ⟨c, cs, hnc⟩ : ∃ c cs, natChars n.natAbs = c :: cs := by
        cases h : natChars n.natAbs with
        | nil => exact absurd h (natChars_ne_nil _)
        | cons a l => exact ⟨a, l, rfl⟩
      have hcd : c.isDigit = true := natChars_all_digit _ c (by rw [hnc]; simp)
      have excl := isDigit_excl hcd
      rw [hnc] at hf
      simp only [List.length_cons] at hf
      obtain ⟨f, rfl⟩ : ∃ f, fuel = f + 1 := ⟨fuel - 1, by omega⟩
      rw [hnc, List.cons_append, parseValue.eq_3]
      rw [if_neg excl.1, if_neg excl.2.1, if_neg excl.2.2.1, if_neg excl.2.2.2.1,
        if_neg excl.2.2.2.2.1, if_neg excl.2.2.2.2.2.1, if_pos hcd]
      rw [← List.cons_append, ← hnc, parseNat_natChars hrest]
      have he : ((n.natAbs : Int)) = n := by omega
      simp only [Option.map_some']
      rw [he]
  · -- true
    intro _ rest fuel hrest hf
    simp only [printValue, List.length_cons] at hf
    simp only [printValue, List.cons_append, List.nil_append]
    obtain ⟨f, rfl⟩ : ∃ f, fuel = f + 1 := ⟨fuel - 1, by omega⟩
    rw [parseValue.eq_3]
    rw [if_neg (by decide), if_neg (by decide), if_neg (by decide), if_pos rfl]
    simp [List.take, List.drop]
  · -- false
    intro _ rest fuel hrest hf
    simp only [printValue, List.length_cons] at hf
    simp only [printValue, List.cons_append, List.nil_append]
    obtain ⟨f, rfl⟩ : ∃ f, fuel = f + 1 := ⟨fuel - 1, by omega⟩
    rw [parseValue.eq_3]
    rw [if_neg (by decide), if_neg (by decide), if_neg (by decide), if_neg (by decide),
      if_pos rfl]
    simp [List.take, List.drop]
  · -- empty array
    intro _ rest fuel hrest hf
    simp only [printValue, List.length_cons] at hf
    simp only [printValue, List.cons_append, List.nil_append]
    obtain ⟨f, rfl⟩ : ∃ f, fuel = f + 1 := ⟨fuel - 1, by omega⟩
    rw [parseValue.eq_3]
    rw [if_neg (by decide), if_pos rfl]
    simp
  · -- nonempty array
    intro x xs hx hxs hsup rest fuel hrest hf
    have hs : supportedB x = true ∧ supportedListB xs = true := by
      have : supportedB (JValue.arr (x :: xs)) = supportedListB (x :: xs) := by
        simp [supportedB]
      rw [this] at hsup
      simpa [supportedListB] using hsup
    simp only [printValue, List.length_cons, List.length_append] at hf
    simp only [printValue, List.cons_append, List.append_assoc, List.cons_append,
      List.nil_append]
    obtain ⟨f, rfl⟩ : ∃ f, fuel = f + 1 := ⟨fuel - 1, by omega⟩
    rw [parseValue.eq_3]
    rw [if_neg (by decide), if_pos rfl]
    simp only [List.take_succ_cons, List.take_zero, List.drop_succ_cons, List.drop_zero]
    simp only [if_true]
    rw [← List.append_assoc]
    rw [parseArrElems_step x xs rest f hx hxs hs.1 hs.2
      (by simp only [List.length_append]; omega)]
    simp
  · -- empty inline table
    intro _ rest fuel hrest hf
    simp only [printValue, List.length_cons] at hf
    simp only [printValue, List.cons_append, List.nil_append]
    obtain ⟨f, rfl⟩ : ∃ f, fuel = f + 1 := ⟨fuel - 1, by omega⟩
    rw [parseValue.eq_3]
    rw [if_neg (by decide), if_neg (by decide), if_pos rfl]
    simp
  · -- nonempty inline table
    intro e es he hes hsup rest fuel hrest hf
    obtain ⟨k, v⟩ := e
    have hs : supportedB v = true ∧ supportedEntriesB es = true := by
      have : supportedB (JValue.record ((k, v) :: es)) =
          supportedEntriesB ((k, v) :: es) := by simp [supportedB]
      rw [this] at hsup
      simpa [supportedEntriesB] using hsup
    simp only [printValue, List.length_cons, List.length_append] at hf
    simp only [printValue, List.cons_append, List.append_assoc, List.cons_append,
      List.nil_append]
    obtain ⟨f, rfl⟩ : ∃ f, fuel = f + 1 := ⟨fuel - 1, by omega⟩
    rw [parseValue.eq_3]
    rw [if_neg (by decide), if_neg (by decide), if_pos rfl]
    simp only [List.take_succ_cons, List.take_zero, List.drop_succ_cons, List.drop_zero]
    rw [if_neg (by decide)]
    simp only [if_true]
    rw [← List.append_assoc]
    rw [parseInlineKVs_step k v es rest f he hes hs.1 hs.2
      (by simp only [List.length_append]; omega)]
    simp
  · -- null
    intro h
    exact absurd h (by decide)
  · -- nan
    intro h
    exact absurd h (by decide)
  · -- func
    intro h
    exact absurd h (by decide)
  · -- PAE nil
    trivial
  · -- PAE cons
    intro x xs hx hxs
    show PAE (x :: xs)
    rw [PAE]
    intro hsup rest fuel hf
    have hs : supportedB x = true ∧ supportedListB xs = true := by
      simpa [supportedListB] using hsup
    exact parseArrElems_step x xs rest fuel hx hxs hs.1 hs.2 hf
  · -- PIE nil
    trivial
  · -- PIE cons
    intro e es he hes
    show PIE (e :: es)
    rw [PIE]
    intro hsup rest fuel hf
    obtain ⟨k, v⟩ := e
    have hs : supportedB v = true ∧ supportedEntriesB es = true := by
      simpa [supportedEntriesB] using hsup
    exact parseInlineKVs_step k v es rest fuel he hes hs.1 hs.2 hf
  · -- entry
    intro k v h
    exact h
/-! ### Line and section scanner inversion -/

theorem parseKVLine_print (k : String) (v : JValue) (rest : List Char) (fuel : Nat)
    (hsv : supportedB v = true)
    (hf : 2 * (printKVLine (k, v)).length + 2 * rest.length + 16 ≤ fuel) :
    parseKVLine fuel (printKVLine (k, v) ++ rest) = some ((k, v), rest) := by
  have hpl : printKVLine (k, v) ++ rest =
      keyChars k ++ (' ' :: '=' :: ' ' :: (printValue v ++ '\n' :: rest)) := by
    simp [printKVLine]
  rw [hpl]
  simp only [printKVLine, List.length_append, List.length_cons] at hf
  rw [parseKVLine]
  rw [parseKey_print k _ fuel (by simp [headNotB, isBareChar])
    (by simp only [List.length_cons, List.length_append]; omega)]
  simp only [Option.bind_eq_bind, Option.some_bind]
  simp only [and_self, if_true, reduceIte]
  rw [parseValue_print v hsv ('\n' :: rest) fuel (by simp [headNotB])
    (by simp only [List.length_cons]; omega)]
  simp

theorem scanKVs_print : ∀ (es : List (String × JValue)) (rest : List Char) (fuel : Nat),
    flatOKB es = true →
    (skipNL rest = [] ∨ ∃ r, skipNL rest = '[' :: r) →
    2 * (printLines es ++ rest).length + 20 ≤ fuel →
    scanKVs fuel (printLines es ++ rest) = some (es, skipNL rest) := by
  intro es
  induction es with
  | nil =>
      intro rest fuel _ hstop hf
      simp only [printLines, List.flatMap_nil, List.nil_append] at hf ⊢
      obtain ⟨f, rfl⟩ : ∃ f, fuel = f + 1 := ⟨fuel - 1, by omega⟩
      rw [scanKVs]
      rcases hstop with h | ⟨r, h⟩
      · rw [h]
      · rw [h]
        simp
  | cons e es ih =>
      intro rest fuel hok hstop hf
      obtain ⟨k, v⟩ := e
      have hok' : supportedB v = true ∧ flatOKB es = true := by
        simpa [flatOKB] using hok
      have hlines : printLines ((k, v) :: es) = printKVLine (k, v) ++ printLines es := by
        simp [printLines]
      rw [hlines] at hf ⊢
      obtain ⟨c, cs, hkc, hc1, hc2⟩ := keyChars_head k
      have hkv : printKVLine (k, v) ++ (printLines es ++ rest) =
          c :: (cs ++ (' ' :: '=' :: ' ' :: printValue v) ++ '\n' :: (printLines es ++ rest)) := by
        simp [printKVLine, hkc]
      rw [List.append_assoc, hkv]
      obtain ⟨f, rfl⟩ : ∃ f, fuel = f + 1 := ⟨fuel - 1, by omega⟩
      rw [scanKVs]
      rw [skipNL_cons_ne hc1]
      try dsimp only
      rw [if_neg hc2]
      have hline := parseKVLine_print k v (printLines es ++ rest) (f + 1) hok'.1
        (by simp only [List.length_append] at hf ⊢; omega)
      rw [hkv] at hline
      rw [hline]
      simp only [Option.bind_eq_bind, Option.some_bind]
      rw [ih rest f hok'.2 hstop
        (by have hl : 1 ≤ (printKVLine (k, v)).length := by
              simp only [printKVLine, List.length_append, List.length_cons]
              omega
            simp only [List.length_append] at hf ⊢
            omega)]
      simp

theorem parsePath_print : ∀ (q : List String) (rest : List Char) (fuel : Nat),
    ¬q = [] → 2 * (printPath q).length + 2 * rest.length + 8 ≤ fuel →
    parsePath fuel (printPath q ++ ']' :: rest) = some (q, rest) := by
  intro q
  induction q with
  | nil => intro rest fuel hq _; exact absurd rfl hq
  | cons k ks ih =>
      intro rest fuel _ hf
      cases ks with
      | nil =>
          simp only [printPath] at hf ⊢
          obtain ⟨f, rfl⟩ : ∃ f, fuel = f + 1 := ⟨fuel - 1, by omega⟩
          rw [parsePath]
          rw [parseKey_print k _ (f + 1) (by simp [headNotB, isBareChar])
            (by simp only [List.length_cons]; omega)]
          simp
      | cons k2 ks2 =>
          have hpp : printPath (k :: k2 :: ks2) = keyChars k ++ '.' :: printPath (k2 :: ks2) := by
            simp [printPath]
          rw [hpp] at hf ⊢
          simp only [List.length_append, List.length_cons] at hf
          obtain ⟨f, rfl⟩ : ∃ f, fuel = f + 1 := ⟨fuel - 1, by omega⟩
          rw [parsePath]
          rw [List.append_assoc, List.cons_append]
          rw [parseKey_print k _ (f + 1) (by simp [headNotB, isBareChar])
            (by simp only [List.length_cons, List.length_append]; omega)]
          simp only [Option.bind_eq_bind, Option.some_bind, if_true, reduceIte]
          rw [ih rest f (by exact List.cons_ne_nil k2 ks2) (by omega)]
          simp

theorem scanSecs_skipNL (fuel : Nat) (cs : List Char) :
    scanSecs fuel (skipNL cs) = scanSecs fuel cs := by
  cases fuel with
  | zero => rfl
  | succ f =>
      conv_lhs => rw [scanSecs]
      conv_rhs => rw [scanSecs]
      rw [skipNL_idem]

theorem scanSecs_print : ∀ (secs : List (List String × List (String × JValue))) (fuel : Nat),
    secsOKB secs = true →
    2 * (secs.flatMap printSec).length + 24 ≤ fuel →
    scanSecs fuel (secs.flatMap printSec) = some secs := by
  intro secs
  induction secs with
  | nil =>
      intro fuel _ hf
      obtain ⟨f, rfl⟩ : ∃ f, fuel = f + 1 := ⟨fuel - 1, by omega⟩
      rw [List.flatMap_nil, scanSecs]
      simp [skipNL]
  | cons sec secs ih =>
      intro fuel hok hf
      obtain ⟨q, es⟩ := sec
      have hok' : (¬q = [] ∧ flatOKB es = true) ∧ secsOKB secs = true := by
        have := hok
        simp only [secsOKB, List.all_cons, Bool.and_eq_true] at this
        refine ⟨⟨?_, this.1.2⟩, this.2⟩
        have h1 := this.1.1
        simp only [Bool.not_eq_true', List.isEmpty_eq_false] at h1
        exact h1
      have hsec : (((q, es) :: secs).flatMap printSec) =
          '\n' :: '[' :: (printPath q ++ ']' :: '\n' ::
            (printLines es ++ secs.flatMap printSec)) := by
        simp [printSec, printLines]
      rw [hsec] at hf ⊢
      simp only [List.length_cons, List.length_append] at hf
      obtain ⟨f, rfl⟩ : ∃ f, fuel = f + 1 := ⟨fuel - 1, by omega⟩
      rw [scanSecs]
      rw [skipNL]
      simp only [if_true, reduceIte]
      rw [skipNL_cons_ne (by decide)]
      try dsimp only
      simp only [if_true, reduceIte]
      rw [parsePath_print q _ (f + 1) hok'.1.1
        (by simp only [List.length_cons, List.length_append]; omega)]
      simp only [Option.bind_eq_bind, Option.some_bind]
      try dsimp only
      simp only [if_true, reduceIte]
      have hstop : skipNL (secs.flatMap printSec) = [] ∨
          ∃ r, skipNL (secs.flatMap printSec) = '[' :: r := by
        cases secs with
        | nil => left; simp [skipNL]
        | cons s2 ss =>
            right
            obtain ⟨q2, es2⟩ := s2
            have : ((q2, es2) :: ss).flatMap printSec =
                '\n' :: '[' :: (printPath q2 ++ ']' :: '\n' ::
                  (printLines es2 ++ ss.flatMap printSec)) := by
              simp [printSec, printLines]
            rw [this, skipNL]
            simp only [if_true, reduceIte]
            rw [skipNL_cons_ne (by decide)]
            exact ⟨_, rfl⟩
      rw [scanKVs_print es (secs.flatMap printSec) (f + 1) hok'.1.2 hstop
        (by simp only [List.length_append]; omega)]
      simp only [Option.bind_eq_bind, Option.some_bind]
      rw [scanSecs_skipNL]
      rw [ih f hok'.2 (by omega)]
      simp

theorem scanFlat_print (sc : List (String × JValue))
    (secs : List (List String × List (String × JValue))) (fuel : Nat)
    (h1 : flatOKB sc = true) (h2 : secsOKB secs = true)
    (hf : 2 * (printFlat sc secs).length + 40 ≤ fuel) :
    scanFlat fuel (printFlat sc secs) = some (sc, secs) := by
  rw [printFlat] at hf ⊢
  have hstop : skipNL (secs.flatMap printSec) = [] ∨
      ∃ r, skipNL (secs.flatMap printSec) = '[' :: r := by
    cases secs with
    | nil => left; simp [skipNL]
    | cons s2 ss =>
        right
        obtain ⟨q2, es2⟩ := s2
        have : ((q2, es2) :: ss).flatMap printSec =
            '\n' :: '[' :: (printPath q2 ++ ']' :: '\n' ::
              (printLines es2 ++ ss.flatMap printSec)) := by
          simp [printSec, printLines]
        rw [this, skipNL]
        simp only [if_true, reduceIte]
        rw [skipNL_cons_ne (by decide)]
        exact ⟨_, rfl⟩
  rw [scanFlat]
  rw [scanKVs_print sc (secs.flatMap printSec) fuel h1 hstop
    (by simp only [List.length_append] at hf ⊢; omega)]
  simp only [Option.bind_eq_bind, Option.some_bind]
  rw [scanSecs_skipNL]
  rw [scanSecs_print secs fuel h2
    (by simp only [List.length_append] at hf; omega)]
  rfl
/-! ### Keys, partitions and section shapes -/

theorem keysOf_cons (k : String) (v : JValue) (es : List (String × JValue)) :
    keysOf ((k, v) :: es) = k :: keysOf es := rfl

theorem hasDupKeysB_eq_false {es : List (String × JValue)} :
    hasDupKeysB es = false ↔ (keysOf es).Nodup := by
  simp [hasDupKeysB]

theorem hasDupKeysB_cons_false {k : String} {v : JValue} {es : List (String × JValue)}
    (h : hasDupKeysB ((k, v) :: es) = false) :
    ¬k ∈ keysOf es ∧ hasDupKeysB es = false := by
  rw [hasDupKeysB_eq_false, keysOf_cons, List.nodup_cons] at h
  exact ⟨h.1, hasDupKeysB_eq_false.mpr h.2⟩

theorem isRecB_true {v : JValue} (h : v.isRecB = true) :
    ∃ r, v = JValue.record r := by
  cases v
  case record r => exact ⟨r, rfl⟩
  all_goals exact absurd h (by simp [JValue.isRecB])

theorem nonRecEntries_nil : nonRecEntries [] = [] := rfl

theorem nonRecEntries_cons_rec (k : String) (r : List (String × JValue))
    (es : List (String × JValue)) :
    nonRecEntries ((k, JValue.record r) :: es) = nonRecEntries es := by
  simp [nonRecEntries, List.filter, JValue.isRecB]

theorem nonRecEntries_cons_nonrec {v : JValue} (k : String) (es : List (String × JValue))
    (h : v.isRecB = false) :
    nonRecEntries ((k, v) :: es) = (k, v) :: nonRecEntries es := by
  simp [nonRecEntries, List.filter, h]

theorem reorderRecs_cons_rec (k : String) (r : List (String × JValue))
    (es : List (String × JValue)) :
    reorderRecs ((k, JValue.record r) :: es) =
      (k, JValue.record (nonRecEntries r ++ reorderRecs r)) :: reorderRecs es := by
  rw [reorderRecs]
  simp [JValue.isRecB, reorderVal]

theorem reorderRecs_cons_nonrec {v : JValue} (k : String) (es : List (String × JValue))
    (h : v.isRecB = false) :
    reorderRecs ((k, v) :: es) = reorderRecs es := by
  rw [reorderRecs, h]
  simp

theorem specSections_cons (p : List String) (k : String) (v : JValue)
    (es : List (String × JValue)) :
    specSections p ((k, v) :: es) = secsOfVal (p ++ [k]) v ++ specSections p es := by
  rw [specSections]

theorem secsOfVal_record (p : List String) (r : List (String × JValue)) :
    secsOfVal p (JValue.record r) = (p, nonRecEntries r) :: specSections p r := by
  rw [secsOfVal]

theorem secsOfVal_ne_record {p : List String} {v : JValue}
    (h : ∀ r, ¬v = JValue.record r) : secsOfVal p v = [] := by
  cases v
  case record r => exact absurd rfl (h r)
  all_goals rfl

theorem secsOfVal_nonrec {p : List String} {v : JValue} (h : v.isRecB = false) :
    secsOfVal p v = [] := by
  cases v
  case record r => exact absurd h (by simp [JValue.isRecB])
  all_goals rfl

theorem nodupSecB_cons (k : String) (v : JValue) (es : List (String × JValue)) :
    nodupSecB ((k, v) :: es) = (nodupSecV v && nodupSecB es) := by
  rw [nodupSecB]

theorem nodupSecV_nonrec {v : JValue} (h : v.isRecB = false) : nodupSecV v = true := by
  cases v
  case record r => exact absurd h (by simp [JValue.isRecB])
  all_goals rfl

/-! ### Child keys and tree rebuilding -/

theorem childKey_self (p : List String) (k : String) : childKey p (p ++ [k]) = some k := by
  simp [childKey]

theorem childKey_some {p q : List String} {k : String} (h : childKey p q = some k) :
    q = p ++ [k] := by
  unfold childKey at h
  split at h
  · exact absurd h (by simp)
  · rename_i k1 t hq
    by_cases ht : t.reverse = p
    · rw [if_pos ht] at h
      have hk1 : k1 = k := by simpa using h
      calc q = q.reverse.reverse := (List.reverse_reverse q).symm
        _ = t.reverse ++ [k1] := by rw [hq]; simp
        _ = p ++ [k] := by rw [ht, hk1]
    · rw [if_neg ht] at h
      exact absurd h (by simp)

theorem childKey_none {p q : List String} (h : ¬p <+: q) : childKey p q = none := by
  cases hk : childKey p q with
  | none => rfl
  | some k =>
      have hq := childKey_some hk
      subst hq
      exact absurd (List.prefix_append p [k]) h

theorem rebuildAt_stop : ∀ (fuel : Nat) (p : List String) (own : List (String × JValue))
    (Z : List (List String × List (String × JValue))),
    (∀ z ∈ Z, ¬p <+: z.1) → rebuildAt fuel p own Z = (own, Z) := by
  intro fuel p own Z hZ
  cases fuel with
  | zero => rfl
  | succ f =>
      cases Z with
      | nil => rfl
      | cons z rest =>
          obtain ⟨q, es⟩ := z
          rw [rebuildAt]
          rw [childKey_none (hZ (q, es) (by simp))]

theorem specSections_shape : ∀ (p : List String) (es : List (String × JValue)),
    ∀ z ∈ specSections p es,
      ∃ k t r, z.1 = p ++ (k :: t) ∧ (k, JValue.record r) ∈ es := by
  refine fun p es => specSections.induct
    (fun q v => ∀ z ∈ secsOfVal q v, q <+: z.1)
    (fun p es => ∀ z ∈ specSections p es,
      ∃ k t r, z.1 = p ++ (k :: t) ∧ (k, JValue.record r) ∈ es)
    ?_ ?_ ?_ ?_ p es
  · intro q r ih z hz
    rw [secsOfVal_record] at hz
    rcases List.mem_cons.mp hz with h | h
    · subst h
      exact List.prefix_refl q
    · obtain ⟨k, t, r2, hz1, _⟩ := ih z h
      rw [hz1]
      exact ⟨k :: t, rfl⟩
  · intro v q hnr z hz
    rw [secsOfVal_ne_record (fun r hr => hnr r hr)] at hz
    exact absurd hz (List.not_mem_nil z)
  · intro p z hz
    rw [specSections] at hz
    exact absurd hz (List.not_mem_nil z)
  · intro p k v rest ih1 ih2 z hz
    rw [specSections_cons] at hz
    rcases List.mem_append.mp hz with h | h
    · cases hrec : v.isRecB with
      | false =>
          rw [secsOfVal_nonrec hrec] at h
          exact absurd h (List.not_mem_nil z)
      | true =>
          obtain ⟨r, rfl⟩ := isRecB_true hrec
          obtain ⟨t, ht⟩ := ih1 z h
          exact ⟨k, t, r, by rw [← ht]; simp, List.mem_cons_self _ _⟩
    · obtain ⟨k2, t, r, hz1, hmem⟩ := ih2 z h
      exact ⟨k2, t, r, hz1, List.mem_cons_of_mem _ hmem⟩

theorem rebuildAt_spec : ∀ (fuel : Nat) (es : List (String × JValue)) (p : List String)
    (own : List (String × JValue)) (Z : List (List String × List (String × JValue))),
    hasDupKeysB es = false → nodupSecB es = true →
    (∀ z ∈ Z, ¬p <+: z.1) →
    (specSections p es).length < fuel →
    rebuildAt fuel p own (specSections p es ++ Z) = (own ++ reorderRecs es, Z) := by
  intro fuel
  induction fuel using Nat.strong_induction_on with
  | _ fuel ihf =>
  intro es
  induction es with
  | nil =>
      intro p own Z _ _ hZ _
      rw [specSections, List.nil_append, reorderRecs, List.append_nil]
      exact rebuildAt_stop fuel p own Z hZ
  | cons e es ihe =>
      intro p own Z hdup hsec hZ hfuel
      obtain ⟨k, v⟩ := e
      obtain ⟨hk, hdup2⟩ := hasDupKeysB_cons_false hdup
      have hsv : nodupSecV v = true ∧ nodupSecB es = true := by
        simpa [nodupSecB_cons] using hsec
      cases hrec : v.isRecB with
      | false =>
          rw [specSections_cons, secsOfVal_nonrec hrec, List.nil_append] at hfuel ⊢
          rw [reorderRecs_cons_nonrec k es hrec]
          exact ihe p own Z hdup2 hsv.2 hZ hfuel
      | true =>
          obtain ⟨r, rfl⟩ := isRecB_true hrec
          have hrv : hasDupKeysB r = false ∧ nodupSecB r = true := by
            simpa [nodupSecV] using hsv.1
          rw [specSections_cons, secsOfVal_record] at hfuel ⊢
          simp only [List.length_append, List.length_cons] at hfuel
          obtain ⟨f, rfl⟩ : ∃ f, fuel = f + 1 := ⟨fuel - 1, by omega⟩
          rw [List.append_assoc, List.cons_append]
          rw [rebuildAt]
          rw [childKey_self]
          have hZ2 : ∀ z ∈ specSections p es ++ Z, ¬(p ++ [k]) <+: z.1 := by
            intro z hz
            rcases List.mem_append.mp hz with h | h
            · obtain ⟨k2, t, r2, hz1, hmem⟩ := specSections_shape p es z h
              rw [hz1]
              intro hpre
              have hkk : k = k2 ∧ [] <+: t :=
                List.cons_prefix_cons.mp ((List.prefix_append_right_inj p).mp hpre)
              refine hk (List.mem_map.mpr ⟨(k2, JValue.record r2), hmem, ?_⟩)
              exact hkk.1.symm
            · intro hpre
              exact hZ z h ((List.prefix_append p [k]).trans hpre)
          have hsub := ihf f (by omega) r (p ++ [k]) (nonRecEntries r)
            (specSections p es ++ Z) hrv.1 hrv.2 hZ2 (by omega)
          dsimp only
          rw [hsub]
          have hcont := ihf f (by omega) es p
            (own ++ [(k, JValue.record (nonRecEntries r ++ reorderRecs r))]) Z
            hdup2 hsv.2 hZ (by omega)
          rw [hcont]
          rw [reorderRecs_cons_rec]
          simp
/-! ### Supported values and unsupported-value paths -/

theorem supportedEntriesB_cons (k : String) (v : JValue) (es : List (String × JValue)) :
    supportedEntriesB ((k, v) :: es) = (supportedB v && supportedEntriesB es) := rfl

theorem unsupAtV_arr (xs : List JValue) (p : List String) :
    unsupAtV (JValue.arr xs) p = unsupAtL xs p := by
  cases p <;> rfl

theorem supported_no_unsup : ∀ v : JValue, supportedB v = true → ∀ p, unsupAtV v p = false := by
  refine fun v => supportedB.induct
    (fun v => supportedB v = true → ∀ p, unsupAtV v p = false)
    (fun es => supportedEntriesB es = true → ∀ k t, unsupAtE es k t = false)
    (fun xs => supportedListB xs = true → ∀ p, unsupAtL xs p = false)
    ?_ ?_ ?_ ?_ ?_ ?_ ?_ ?_ ?_ ?_ ?_ ?_ v
  · intro s _ p
    cases p <;> rfl
  · intro n _ p
    cases p <;> rfl
  · intro b _ p
    cases p <;> rfl
  · intro xs ih h p
    rw [unsupAtV_arr]
    exact ih (by simpa [supportedB] using h) p
  · intro es ih h p
    cases p with
    | nil => rfl
    | cons k t => exact ih (by simpa [supportedB] using h) k t
  · intro h
    exact absurd h (by simp [supportedB])
  · intro h
    exact absurd h (by simp [supportedB])
  · intro h
    exact absurd h (by simp [supportedB])
  · intro _ p
    rfl
  · intro x xs ihx ihxs h p
    have h2 : supportedB x = true ∧ supportedListB xs = true := by
      simpa [supportedListB] using h
    rw [unsupAtL]
    rw [ihx h2.1 p, ihxs h2.2 p]
    rfl
  · intro _ k t
    rfl
  · intro k1 v es ihv ihes h k t
    have h2 : supportedB v = true ∧ supportedEntriesB es = true := by
      simpa [supportedEntriesB] using h
    rw [unsupAtE]
    rw [ihv h2.1 t, ihes h2.2 k t]
    simp

/-! ### The inline checker: success means supported, errors carry true paths -/

theorem checkInline_supported : ∀ v : JValue, ∀ fuel p u,
    checkInline fuel p v = .ok u → supportedB v = true := by
  refine fun v => supportedB.induct
    (fun v => ∀ fuel p u, checkInline fuel p v = .ok u → supportedB v = true)
    (fun es => ∀ fuel p u, checkInlineEntries fuel p es = .ok u → supportedEntriesB es = true)
    (fun xs => ∀ fuel p u, checkInlineList fuel p xs = .ok u → supportedListB xs = true)
    ?_ ?_ ?_ ?_ ?_ ?_ ?_ ?_ ?_ ?_ ?_ ?_ v
  · intro s _ _ _ _
    rfl
  · intro n _ _ _ _
    rfl
  · intro b _ _ _ _
    rfl
  · intro xs ih fuel p u h
    rw [checkInline] at h
    by_cases hf : fuel = 0
    · rw [if_pos hf] at h
      exact absurd h (by simp)
    · rw [if_neg hf] at h
      exact ih (fuel - 1) p u h
  · intro es ih fuel p u h
    rw [checkInline] at h
    by_cases hf : fuel = 0
    · rw [if_pos hf] at h
      exact absurd h (by simp)
    · rw [if_neg hf] at h
      by_cases hd : hasDupKeysB es
      · rw [if_pos hd] at h
        exact absurd h (by simp)
      · rw [if_neg hd] at h
        exact ih (fuel - 1) p u h
  · intro fuel p u h
    exact absurd h (by simp [checkInline])
  · intro fuel p u h
    exact absurd h (by simp [checkInline])
  · intro fuel p u h
    exact absurd h (by simp [checkInline])
  · intro _ _ _ _
    rfl
  · intro x xs ihx ihxs fuel p u h
    rw [checkInlineList] at h
    cases hc : checkInline fuel p x with
    | error e =>
        rw [hc] at h
        exact absurd h (by simp [Bind.bind, Except.bind])
    | ok u1 =>
        rw [hc] at h
        simp only [Bind.bind, Except.bind] at h
        rw [supportedListB, ihx fuel p u1 hc, ihxs fuel p u h]
        rfl
  · intro _ _ _ _
    rfl
  · intro k v es ihv ihes fuel p u h
    rw [checkInlineEntries] at h
    cases hc : checkInline fuel (p ++ [k]) v with
    | error e =>
        rw [hc] at h
        exact absurd h (by simp [Bind.bind, Except.bind])
    | ok u1 =>
        rw [hc] at h
        simp only [Bind.bind, Except.bind] at h
        rw [supportedEntriesB_cons, ihv fuel (p ++ [k]) u1 hc, ihes fuel p u h]
        rfl

theorem checkInline_unsup : ∀ v : JValue, ∀ fuel p q,
    checkInline fuel p v = .error (.unsupportedValue q) →
    ∃ t, q = p ++ t ∧ unsupAtV v t = true := by
  refine fun v => supportedB.induct
    (fun v => ∀ fuel p q, checkInline fuel p v = .error (.unsupportedValue q) →
      ∃ t, q = p ++ t ∧ unsupAtV v t = true)
    (fun es => ∀ fuel p q, checkInlineEntries fuel p es = .error (.unsupportedValue q) →
      ∃ k t, q = p ++ (k :: t) ∧ unsupAtE es k t = true)
    (fun xs => ∀ fuel p q, checkInlineList fuel p xs = .error (.unsupportedValue q) →
      ∃ t, q = p ++ t ∧ unsupAtL xs t = true)
    ?_ ?_ ?_ ?_ ?_ ?_ ?_ ?_ ?_ ?_ ?_ ?_ v
  · intro s fuel p q h
    exact absurd h (by simp [checkInline])
  · intro n fuel p q h
    exact absurd h (by simp [checkInline])
  · intro b fuel p q h
    exact absurd h (by simp [checkInline])
  · intro xs ih fuel p q h
    rw [checkInline] at h
    by_cases hf : fuel = 0
    · rw [if_pos hf] at h
      exact absurd h (by simp)
    · rw [if_neg hf] at h
      obtain ⟨t, ht, hu⟩ := ih (fuel - 1) p q h
      exact ⟨t, ht, by rw [unsupAtV_arr]; exact hu⟩
  · intro es ih fuel p q h
    rw [checkInline] at h
    by_cases hf : fuel = 0
    · rw [if_pos hf] at h
      exact absurd h (by simp)
    · rw [if_neg hf] at h
      by_cases hd : hasDupKeysB es
      · rw [if_pos hd] at h
        exact absurd h (by simp)
      · rw [if_neg hd] at h
        obtain ⟨k, t, ht, hu⟩ := ih (fuel - 1) p q h
        exact ⟨k :: t, ht, hu⟩
  · intro fuel p q h
    refine ⟨[], ?_, rfl⟩
    have : SerError.unsupportedValue p = SerError.unsupportedValue q := by
      simpa [checkInline] using h
    simpa using this.symm
  · intro fuel p q h
    refine ⟨[], ?_, rfl⟩
    have : SerError.unsupportedValue p = SerError.unsupportedValue q := by
      simpa [checkInline] using h
    simpa using this.symm
  · intro fuel p q h
    refine ⟨[], ?_, rfl⟩
    have : SerError.unsupportedValue p = SerError.unsupportedValue q := by
      simpa [checkInline] using h
    simpa using this.symm
  · intro fuel p q h
    exact absurd h (by simp [checkInlineList])
  · intro x xs ihx ihxs fuel p q h
    rw [checkInlineList] at h
    cases hc : checkInline fuel p x with
    | error e =>
        rw [hc] at h
        simp only [Bind.bind, Except.bind] at h
        obtain rfl : e = .unsupportedValue q := by simpa using h
        obtain ⟨t, ht, hu⟩ := ihx fuel p q hc
        exact ⟨t, ht, by rw [unsupAtL, hu]; rfl⟩
    | ok u1 =>
        rw [hc] at h
        simp only [Bind.bind, Except.bind] at h
        obtain ⟨t, ht, hu⟩ := ihxs fuel p q h
        exact ⟨t, ht, by rw [unsupAtL, hu]; simp⟩
  · intro fuel p q h
    exact absurd h (by simp [checkInlineEntries])
  · intro k v es ihv ihes fuel p q h
    rw [checkInlineEntries] at h
    cases hc : checkInline fuel (p ++ [k]) v with
    | error e =>
        rw [hc] at h
        simp only [Bind.bind, Except.bind] at h
        obtain rfl : e = .unsupportedValue q := by simpa using h
        obtain ⟨t, ht, hu⟩ := ihv fuel (p ++ [k]) q hc
        refine ⟨k, t, by rw [ht]; simp, ?_⟩
        rw [unsupAtE]
        simp [hu]
    | ok u1 =>
        rw [hc] at h
        simp only [Bind.bind, Except.bind] at h
        obtain ⟨k2, t, ht, hu⟩ := ihes fuel p q h
        refine ⟨k2, t, ht, ?_⟩
        rw [unsupAtE]
        simp [hu]

theorem checkInline_no_reclimit : ∀ v : JValue, ∀ fuel p q, depthV v ≤ fuel →
    ¬checkInline fuel p v = .error (.recursionLimit q) := by
  refine fun v => supportedB.induct
    (fun v => ∀ fuel p q, depthV v ≤ fuel →
      ¬checkInline fuel p v = .error (.recursionLimit q))
    (fun es => ∀ fuel p q, depthE es ≤ fuel →
      ¬checkInlineEntries fuel p es = .error (.recursionLimit q))
    (fun xs => ∀ fuel p q, depthL xs ≤ fuel →
      ¬checkInlineList fuel p xs = .error (.recursionLimit q))
    ?_ ?_ ?_ ?_ ?_ ?_ ?_ ?_ ?_ ?_ ?_ ?_ v
  · intro s fuel p q _ h
    exact absurd h (by simp [checkInline])
  · intro n fuel p q _ h
    exact absurd h (by simp [checkInline])
  · intro b fuel p q _ h
    exact absurd h (by simp [checkInline])
  · intro xs ih fuel p q hd h
    rw [depthV] at hd
    rw [checkInline] at h
    rw [if_neg (by omega)] at h
    exact ih (fuel - 1) p q (by omega) h
  · intro es ih fuel p q hd h
    rw [depthV] at hd
    rw [checkInline] at h
    rw [if_neg (by omega)] at h
    by_cases hdup : hasDupKeysB es
    · rw [if_pos hdup] at h
      exact absurd h (by simp)
    · rw [if_neg hdup] at h
      exact ih (fuel - 1) p q (by omega) h
  · intro fuel p q _ h
    exact absurd h (by simp [checkInline])
  · intro fuel p q _ h
    exact absurd h (by simp [checkInline])
  · intro fuel p q _ h
    exact absurd h (by simp [checkInline])
  · intro fuel p q _ h
    exact absurd h (by simp [checkInlineList])
  · intro x xs ihx ihxs fuel p q hd h
    rw [depthL] at hd
    rw [checkInlineList] at h
    cases hc : checkInline fuel p x with
    | error e =>
        rw [hc] at h
        simp only [Bind.bind, Except.bind] at h
        obtain rfl : e = .recursionLimit q := by simpa using h
        exact ihx fuel p q (by omega) hc
    | ok u1 =>
        rw [hc] at h
        simp only [Bind.bind, Except.bind] at h
        exact ihxs fuel p q (by omega) h
  · intro fuel p q _ h
    exact absurd h (by simp [checkInlineEntries])
  · intro k v es ihv ihes fuel p q hd h
    rw [depthE] at hd
    rw [checkInlineEntries] at h
    cases hc : checkInline fuel (p ++ [k]) v with
    | error e =>
        rw [hc] at h
        simp only [Bind.bind, Except.bind] at h
        obtain rfl : e = .recursionLimit q := by simpa using h
        exact ihv fuel (p ++ [k]) q (by omega) hc
    | ok u1 =>
        rw [hc] at h
        simp only [Bind.bind, Except.bind] at h
        exact ihes fuel p q (by omega) h
/-! ### Flattening a record: the partition-and-reorder characterization -/

theorem flattenList_cons_rec (chk : List String → JValue → Except SerError Unit)
    (child : List String → List (String × JValue) →
      Except SerError (List (String × JValue) × List (List String × List (String × JValue))))
    (p : List String) (k : String) (r es : List (String × JValue)) :
    flattenList chk child p ((k, JValue.record r) :: es) = (do
      let x ← child (p ++ [k]) r
      let y ← flattenList chk child p es
      .ok (y.1, (p ++ [k], x.1) :: (x.2 ++ y.2))) := rfl

theorem flattenList_cons_nonrec {v : JValue}
    (chk : List String → JValue → Except SerError Unit)
    (child : List String → List (String × JValue) →
      Except SerError (List (String × JValue) × List (List String × List (String × JValue))))
    (p : List String) (k : String) (es : List (String × JValue)) (h : v.isRecB = false) :
    flattenList chk child p ((k, v) :: es) = (do
      chk (p ++ [k]) v
      let y ← flattenList chk child p es
      .ok ((k, v) :: y.1, y.2)) := by
  cases v
  case record r => exact absurd h (by simp [JValue.isRecB])
  all_goals rfl

theorem flattenList_ok (fuel : Nat)
    (ihf : ∀ p es x, flattenRecord fuel p es = .ok x →
      x.1 = nonRecEntries es ∧ x.2 = specSections p es ∧
      hasDupKeysB es = false ∧ nodupSecB es = true ∧ supportedEntriesB es = true) :
    ∀ es p y, flattenList (checkInline fuel) (flattenRecord fuel) p es = .ok y →
      y.1 = nonRecEntries es ∧ y.2 = specSections p es ∧
      nodupSecB es = true ∧ supportedEntriesB es = true := by
  intro es
  induction es with
  | nil =>
      intro p y h
      obtain rfl : y = ([], []) := by
        have : Except.ok ([], []) = (Except.ok y :
            Except SerError (List (String × JValue) ×
              List (List String × List (String × JValue)))) := h
        simpa using this.symm
      exact ⟨rfl, rfl, rfl, rfl⟩
  | cons e es ih =>
      intro p y h
      obtain ⟨k, v⟩ := e
      cases hrec : v.isRecB with
      | true =>
          obtain ⟨r, rfl⟩ := isRecB_true hrec
          rw [flattenList_cons_rec] at h
          cases hx : flattenRecord fuel (p ++ [k]) r with
          | error e =>
              rw [hx] at h
              exact absurd h (by simp [Bind.bind, Except.bind])
          | ok x =>
              rw [hx] at h
              cases hy : flattenList (checkInline fuel) (flattenRecord fuel) p es with
              | error e =>
                  rw [hy] at h
                  exact absurd h (by simp [Bind.bind, Except.bind])
              | ok y2 =>
                  rw [hy] at h
                  simp only [Bind.bind, Except.bind] at h
                  obtain rfl : y = (y2.1, (p ++ [k], x.1) :: (x.2 ++ y2.2)) := by
                    simpa using h.symm
                  obtain ⟨hx1, hx2, hxd, hxs, hxp⟩ := ihf (p ++ [k]) r x hx
                  obtain ⟨hy1, hy2, hys, hyp⟩ := ih p y2 hy
                  refine ⟨?_, ?_, ?_, ?_⟩
                  · rw [nonRecEntries_cons_rec]
                    exact hy1
                  · rw [specSections_cons, secsOfVal_record, hx1, hx2, hy2]
                    simp
                  · rw [nodupSecB_cons]
                    simp [nodupSecV, hxd, hxs, hys]
                  · rw [supportedEntriesB_cons]
                    simp [supportedB, hxp, hyp]
      | false =>
          rw [flattenList_cons_nonrec _ _ _ _ _ hrec] at h
          cases hc : checkInline fuel (p ++ [k]) v with
          | error e =>
              rw [hc] at h
              exact absurd h (by simp [Bind.bind, Except.bind])
          | ok u =>
              rw [hc] at h
              cases hy : flattenList (checkInline fuel) (flattenRecord fuel) p es with
              | error e =>
                  rw [hy] at h
                  exact absurd h (by simp [Bind.bind, Except.bind])
              | ok y2 =>
                  rw [hy] at h
                  simp only [Bind.bind, Except.bind] at h
                  obtain rfl : y = ((k, v) :: y2.1, y2.2) := by
                    simpa using h.symm
                  obtain ⟨hy1, hy2, hys, hyp⟩ := ih p y2 hy
                  refine ⟨?_, ?_, ?_, ?_⟩
                  · rw [nonRecEntries_cons_nonrec k es hrec, hy1]
                  · rw [specSections_cons, secsOfVal_nonrec hrec, hy2]
                    simp
                  · rw [nodupSecB_cons, nodupSecV_nonrec hrec, hys]
                    rfl
                  · rw [supportedEntriesB_cons, checkInline_supported v fuel (p ++ [k]) u hc, hyp]
                    rfl

theorem flattenRecord_ok : ∀ (fuel : Nat) (p : List String) (es : List (String × JValue)) x,
    flattenRecord fuel p es = .ok x →
    x.1 = nonRecEntries es ∧ x.2 = specSections p es ∧
    hasDupKeysB es = false ∧ nodupSecB es = true ∧ supportedEntriesB es = true := by
  intro fuel
  induction fuel with
  | zero =>
      intro p es x h
      exact absurd h (by simp [flattenRecord])
  | succ f ihf =>
      intro p es x h
      rw [flattenRecord] at h
      by_cases hdup : hasDupKeysB es
      · rw [if_pos hdup] at h
        exact absurd h (by simp)
      · rw [if_neg hdup] at h
        obtain ⟨h1, h2, h3, h4⟩ := flattenList_ok f ihf es p x h
        exact ⟨h1, h2, by simpa using hdup, h3, h4⟩

theorem flattenList_unsup (fuel : Nat)
    (ihf : ∀ p es q, flattenRecord fuel p es = .error (.unsupportedValue q) →
      ∃ k t, q = p ++ (k :: t) ∧ unsupAtE es k t = true) :
    ∀ es p q, flattenList (checkInline fuel) (flattenRecord fuel) p es =
        .error (.unsupportedValue q) →
      ∃ k t, q = p ++ (k :: t) ∧ unsupAtE es k t = true := by
  intro es
  induction es with
  | nil =>
      intro p q h
      exact absurd h (by simp [flattenList])
  | cons e es ih =>
      intro p q h
      obtain ⟨k, v⟩ := e
      cases hrec : v.isRecB with
      | true =>
          obtain ⟨r, rfl⟩ := isRecB_true hrec
          rw [flattenList_cons_rec] at h
          cases hx : flattenRecord fuel (p ++ [k]) r with
          | error e =>
              rw [hx] at h
              simp only [Bind.bind, Except.bind] at h
              obtain rfl : e = .unsupportedValue q := by simpa using h
              obtain ⟨k2, t, ht, hu⟩ := ihf (p ++ [k]) r q hx
              refine ⟨k, k2 :: t, by rw [ht]; simp, ?_⟩
              rw [unsupAtE]
              have hu2 : unsupAtV (JValue.record r) (k2 :: t) = true := hu
              simp [hu2]
          | ok x =>
              rw [hx] at h
              cases hy : flattenList (checkInline fuel) (flattenRecord fuel) p es with
              | error e =>
                  rw [hy] at h
                  simp only [Bind.bind, Except.bind] at h
                  obtain rfl : e = .unsupportedValue q := by simpa using h
                  obtain ⟨k2, t, ht, hu⟩ := ih p q hy
                  refine ⟨k2, t, ht, ?_⟩
                  rw [unsupAtE]
                  simp [hu]
              | ok y2 =>
                  rw [hy] at h
                  exact absurd h (by simp [Bind.bind, Except.bind])
      | false =>
          rw [flattenList_cons_nonrec _ _ _ _ _ hrec] at h
          cases hc : checkInline fuel (p ++ [k]) v with
          | error e =>
              rw [hc] at h
              simp only [Bind.bind, Except.bind] at h
              obtain rfl : e = .unsupportedValue q := by simpa using h
              obtain ⟨t, ht, hu⟩ := checkInline_unsup v fuel (p ++ [k]) q hc
              refine ⟨k, t, by rw [ht]; simp, ?_⟩
              rw [unsupAtE]
              simp [hu]
          | ok u =>
              rw [hc] at h
              cases hy : flattenList (checkInline fuel) (flattenRecord fuel) p es with
              | error e =>
                  rw [hy] at h
                  simp only [Bind.bind, Except.bind] at h
                  obtain rfl : e = .unsupportedValue q := by simpa using h
                  obtain ⟨k2, t, ht, hu⟩ := ih p q hy
                  refine ⟨k2, t, ht, ?_⟩
                  rw [unsupAtE]
                  simp [hu]
              | ok y2 =>
                  rw [hy] at h
                  exact absurd h (by simp [Bind.bind, Except.bind])

theorem flattenRecord_unsup : ∀ (fuel : Nat) (p : List String) (es : List (String × JValue)) q,
    flattenRecord fuel p es = .error (.unsupportedValue q) →
    ∃ k t, q = p ++ (k :: t) ∧ unsupAtE es k t = true := by
  intro fuel
  induction fuel with
  | zero =>
      intro p es q h
      exact absurd h (by simp [flattenRecord])
  | succ f ihf =>
      intro p es q h
      rw [flattenRecord] at h
      by_cases hdup : hasDupKeysB es
      · rw [if_pos hdup] at h
        exact absurd h (by simp)
      · rw [if_neg hdup] at h
        exact flattenList_unsup f ihf es p q h

theorem flattenList_no_reclimit (fuel : Nat)
    (ihf : ∀ p es q, depthE es < fuel →
      ¬flattenRecord fuel p es = .error (.recursionLimit q)) :
    ∀ es p q, depthE es ≤ fuel →
      ¬flattenList (checkInline fuel) (flattenRecord fuel) p es =
        .error (.recursionLimit q) := by
  intro es
  induction es with
  | nil =>
      intro p q _ h
      exact absurd h (by simp [flattenList])
  | cons e es ih =>
      intro p q hd h
      obtain ⟨k, v⟩ := e
      have hd2 : depthV v ≤ fuel ∧ depthE es ≤ fuel := by
        rw [depthE] at hd
        omega
      cases hrec : v.isRecB with
      | true =>
          obtain ⟨r, rfl⟩ := isRecB_true hrec
          rw [flattenList_cons_rec] at h
          cases hx : flattenRecord fuel (p ++ [k]) r with
          | error e =>
              rw [hx] at h
              simp only [Bind.bind, Except.bind] at h
              obtain rfl : e = .recursionLimit q := by simpa using h
              have hr : depthE r < fuel := by
                have := hd2.1
                rw [depthV] at this
                omega
              exact ihf (p ++ [k]) r q hr hx
          | ok x =>
              rw [hx] at h
              cases hy : flattenList (checkInline fuel) (flattenRecord fuel) p es with
              | error e =>
                  rw [hy] at h
                  simp only [Bind.bind, Except.bind] at h
                  obtain rfl : e = .recursionLimit q := by simpa using h
                  exact ih p q hd2.2 hy
              | ok y2 =>
                  rw [hy] at h
                  exact absurd h (by simp [Bind.bind, Except.bind])
      | false =>
          rw [flattenList_cons_nonrec _ _ _ _ _ hrec] at h
          cases hc : checkInline fuel (p ++ [k]) v with
          | error e =>
              rw [hc] at h
              simp only [Bind.bind, Except.bind] at h
              obtain rfl : e = .recursionLimit q := by simpa using h
              exact checkInline_no_reclimit v fuel (p ++ [k]) q hd2.1 hc
          | ok u =>
              rw [hc] at h
              cases hy : flattenList (checkInline fuel) (flattenRecord fuel) p es with
              | error e =>
                  rw [hy] at h
                  simp only [Bind.bind, Except.bind] at h
                  obtain rfl : e = .recursionLimit q := by simpa using h
                  exact ih p q hd2.2 hy
              | ok y2 =>
                  rw [hy] at h
                  exact absurd h (by simp [Bind.bind, Except.bind])

theorem flattenRecord_no_reclimit : ∀ (fuel : Nat) (p : List String)
    (es : List (String × JValue)) q, depthE es < fuel →
    ¬flattenRecord fuel p es = .error (.recursionLimit q) := by
  intro fuel
  induction fuel with
  | zero =>
      intro p es q hd h
      omega
  | succ f ihf =>
      intro p es q hd h
      rw [flattenRecord] at h
      by_cases hdup : hasDupKeysB es
      · rw [if_pos hdup] at h
        exact absurd h (by simp)
      · rw [if_neg hdup] at h
        exact flattenList_no_reclimit f ihf es p q (by omega) h

/-! ### Parseability of the flat output -/

theorem flatOKB_cons (k : String) (v : JValue) (es : List (String × JValue)) :
    flatOKB ((k, v) :: es) = (supportedB v && flatOKB es) := by
  simp [flatOKB]

theorem flatOK_nonRec : ∀ es, supportedEntriesB es = true →
    flatOKB (nonRecEntries es) = true := by
  intro es
  induction es with
  | nil =>
      intro _
      rfl
  | cons e es ih =>
      obtain ⟨k, v⟩ := e
      intro h
      have h2 : supportedB v = true ∧ supportedEntriesB es = true := by
        simpa [supportedEntriesB] using h
      cases hrec : v.isRecB with
      | true =>
          obtain ⟨r, rfl⟩ := isRecB_true hrec
          rw [nonRecEntries_cons_rec]
          exact ih h2.2
      | false =>
          rw [nonRecEntries_cons_nonrec k es hrec, flatOKB_cons, h2.1, ih h2.2]
          rfl

theorem secsOKB_cons (sec : List String × List (String × JValue))
    (secs : List (List String × List (String × JValue))) :
    secsOKB (sec :: secs) = ((!sec.1.isEmpty && flatOKB sec.2) && secsOKB secs) := by
  simp [secsOKB, flatOKB]

theorem secsOKB_append (a b : List (List String × List (String × JValue))) :
    secsOKB (a ++ b) = (secsOKB a && secsOKB b) := by
  simp [secsOKB]

theorem secsOK_of_supported : ∀ (p : List String) (es : List (String × JValue)),
    supportedEntriesB es = true → secsOKB (specSections p es) = true := by
  refine fun p es => specSections.induct
    (fun q v => ¬q = [] → supportedB v = true → secsOKB (secsOfVal q v) = true)
    (fun p es => supportedEntriesB es = true → secsOKB (specSections p es) = true)
    ?_ ?_ ?_ ?_ p es
  · intro q r ih hq hs
    rw [secsOfVal_record, secsOKB_cons]
    have hs2 : supportedEntriesB r = true := by simpa [supportedB] using hs
    rw [ih hs2, flatOK_nonRec r hs2]
    simp [List.isEmpty_eq_false.mpr hq]
  · intro v q hnr _ _
    rw [secsOfVal_ne_record (fun r hr => hnr r hr)]
    rfl
  · intro p _
    rfl
  · intro p k v rest ih1 ih2 h
    have h2 : supportedB v = true ∧ supportedEntriesB rest = true := by
      simpa [supportedEntriesB] using h
    rw [specSections_cons, secsOKB_append, ih1 (by simp) h2.1, ih2 h2.2]
    rfl

/-! ### Serialization success: shape of the output and round-trip -/

theorem serialize_shape {d : Document} {s : String} (h : serializeDoc d = .ok s) :
    s.data = printFlat (nonRecEntries d) (specSections [] d) ∧
    hasDupKeysB d = false ∧ nodupSecB d = true ∧ supportedEntriesB d = true := by
  rw [serializeDoc] at h
  cases hf : flattenRecord (maxDepth + 1) [] d with
  | error e =>
      rw [hf] at h
      exact absurd h (by simp)
  | ok x =>
      rw [hf] at h
      obtain ⟨h1, h2, h3, h4, h5⟩ := flattenRecord_ok _ _ _ _ hf
      obtain rfl : s = String.mk (printFlat x.1 x.2) := by simpa using h.symm
      refine ⟨?_, h3, h4, h5⟩
      show printFlat x.1 x.2 = printFlat (nonRecEntries d) (specSections [] d)
      rw [h1, h2]

theorem serialize_parse {d : Document} {s : String} (h : serializeDoc d = .ok s) :
    parse s = some (reorderEntries d) := by
  obtain ⟨hs, hdup, hsec, hsup⟩ := serialize_shape h
  rw [parse, hs]
  rw [scanFlat_print (nonRecEntries d) (specSections [] d) _
    (flatOK_nonRec d hsup) (secsOK_of_supported [] d hsup) (by omega)]
  dsimp only
  have hreb := rebuildAt_spec ((specSections [] d).length + 1) d [] (nonRecEntries d) []
    hdup hsec (by simp) (by omega)
  rw [List.append_nil] at hreb
  rw [hreb]
  rfl
/-! ### The printed text never contains raw newlines or control characters -/

theorem digitCh_ne_newline (d : Nat) : ¬digitCh d = '\n' := by
  unfold digitCh
  split <;> decide

theorem hexDigitCh_range (d : Nat) :
    32 ≤ (hexDigitCh d).toNat ∧ ¬(hexDigitCh d).toNat = 127 := by
  unfold hexDigitCh
  split <;> decide

theorem escapeChar_range (c : Char) :
    ∀ c2 ∈ escapeChar c, 32 ≤ c2.toNat ∧ ¬c2.toNat = 127 := by
  intro c2 hc2
  rw [escapeChar] at hc2
  split_ifs at hc2 with h1 h2 h3 h4 h5 h6
  · rcases (show c2 = '\\' ∨ c2 = '"' by simpa using hc2) with rfl | rfl <;> decide
  · rcases (show c2 = '\\' ∨ c2 = '\\' by simpa using hc2) with rfl | rfl <;> decide
  · rcases (show c2 = '\\' ∨ c2 = 'n' by simpa using hc2) with rfl | rfl <;> decide
  · rcases (show c2 = '\\' ∨ c2 = 't' by simpa using hc2) with rfl | rfl <;> decide
  · rcases (show c2 = '\\' ∨ c2 = 'r' by simpa using hc2) with rfl | rfl <;> decide
  · have hm : c2 = '\\' ∨ c2 = 'u' ∨ c2 = '0' ∨ c2 = '0' ∨
        c2 = hexDigitCh (c.toNat / 16) ∨ c2 = hexDigitCh (c.toNat % 16) := by
      simpa using hc2
    rcases hm with rfl | rfl | rfl | rfl | rfl | rfl
    · decide
    · decide
    · decide
    · decide
    · exact hexDigitCh_range _
    · exact hexDigitCh_range _
  · obtain rfl : c2 = c := by simpa using hc2
    push_neg at h6
    exact ⟨by omega, h6.2⟩

theorem escapeChars_range (cs : List Char) :
    ∀ c ∈ escapeChars cs, 32 ≤ c.toNat ∧ ¬c.toNat = 127 := by
  intro c hc
  obtain ⟨c0, _, hm⟩ := List.mem_flatMap.mp hc
  exact escapeChar_range c0 c hm

theorem escapeChars_no_newline (cs : List Char) : ∀ c ∈ escapeChars cs, ¬c = '\n' := by
  intro c hc hceq
  subst hceq
  exact absurd (escapeChars_range cs '\n' hc).1 (by decide)

theorem strLitChars_no_newline (s : String) : ∀ c ∈ strLitChars s, ¬c = '\n' := by
  intro c hc
  rw [strLitChars] at hc
  rcases List.mem_cons.mp hc with rfl | hc2
  · decide
  · rcases List.mem_append.mp hc2 with h3 | h3
    · exact escapeChars_no_newline s.data c h3
    · obtain rfl : c = '"' := by simpa using h3
      decide

theorem keyChars_no_newline (k : String) : ∀ c ∈ keyChars k, ¬c = '\n' := by
  intro c hc
  rw [keyChars] at hc
  split_ifs at hc with hb
  · have hall : k.data.all isBareChar = true := by
      have h2 : ¬k.data.isEmpty = true ∧ k.data.all isBareChar = true := by
        simpa [bareKeyOK] using hb
      exact h2.2
    exact (isBare_excl (List.all_eq_true.mp hall c hc)).2.1
  · exact strLitChars_no_newline k c hc

theorem natChars_no_newline (m : Nat) : ∀ c ∈ natChars m, ¬c = '\n' := by
  intro c hc
  rw [natChars] at hc
  split_ifs at hc with h
  · obtain rfl : c = '0' := by simpa using hc
    decide
  · rw [List.mem_reverse] at hc
    obtain ⟨d, _, rfl⟩ := List.mem_map.mp hc
    exact digitCh_ne_newline d

theorem intChars_no_newline (n : Int) : ∀ c ∈ intChars n, ¬c = '\n' := by
  intro c hc
  rw [intChars] at hc
  split_ifs at hc with h
  · rcases List.mem_cons.mp hc with rfl | hc2
    · decide
    · exact natChars_no_newline _ c hc2
  · exact natChars_no_newline _ c hc

theorem printValue_no_newline : ∀ v : JValue, supportedB v = true →
    ∀ c ∈ printValue v, ¬c = '\n' := by
  intro v
  refine printValue.induct
    (fun v => supportedB v = true → ∀ c ∈ printValue v, ¬c = '\n')
    (fun es => supportedEntriesB es = true → ∀ c ∈ printEntriesInline es, ¬c = '\n')
    (fun e => supportedB e.2 = true → ∀ c ∈ printEntryInline e, ¬c = '\n')
    (fun xs => supportedListB xs = true → ∀ c ∈ printValues xs, ¬c = '\n')
    ?_ ?_ ?_ ?_ ?_ ?_ ?_ ?_ ?_ ?_ ?_ ?_ ?_ ?_ ?_ ?_ v
  · intro s _ c hc
    exact strLitChars_no_newline s c hc
  · intro n _ c hc
    exact intChars_no_newline n c hc
  · intro _ c hc
    rcases (show c = 't' ∨ c = 'r' ∨ c = 'u' ∨ c = 'e' by simpa [printValue] using hc)
      with rfl | rfl | rfl | rfl <;> decide
  · intro _ c hc
    rcases (show c = 'f' ∨ c = 'a' ∨ c = 'l' ∨ c = 's' ∨ c = 'e' by
      simpa [printValue] using hc) with rfl | rfl | rfl | rfl | rfl <;> decide
  · intro _ c hc
    rcases (show c = '[' ∨ c = ']' by simpa [printValue] using hc) with rfl | rfl <;> decide
  · intro x xs ihx ihxs hsup c hc
    have hs : supportedB x = true ∧ supportedListB xs = true := by
      simpa [supportedB, supportedListB] using hsup
    simp only [printValue, List.cons_append, List.mem_cons, List.mem_append] at hc
    rcases hc with rfl | rfl | hc | hc
    · decide
    · decide
    · rcases hc with hc | hc
      · exact ihx hs.1 c hc
      · exact ihxs hs.2 c hc
    · rcases (show c = ' ' ∨ c = ']' by simpa using hc) with rfl | rfl <;> decide
  · intro _ c hc
    rcases (show c = lbrace ∨ c = rbrace by simpa [printValue] using hc)
      with rfl | rfl <;> decide
  · intro e es ihe ihes hsup c hc
    have hs : supportedB e.2 = true ∧ supportedEntriesB es = true := by
      obtain ⟨k, v⟩ := e
      simpa [supportedB, supportedEntriesB] using hsup
    simp only [printValue, List.cons_append, List.mem_cons, List.mem_append] at hc
    rcases hc with rfl | rfl | hc | hc
    · decide
    · decide
    · rcases hc with hc | hc
      · exact ihe hs.1 c hc
      · exact ihes hs.2 c hc
    · rcases (show c = ' ' ∨ c = rbrace by simpa using hc) with rfl | rfl <;> decide
  · intro h
    exact absurd h (by simp [supportedB])
  · intro h
    exact absurd h (by simp [supportedB])
  · intro h
    exact absurd h (by simp [supportedB])
  · intro _ c hc
    exact absurd hc (List.not_mem_nil c)
  · intro x xs ihx ihxs hsup c hc
    have hs : supportedB x = true ∧ supportedListB xs = true := by
      simpa [supportedListB] using hsup
    simp only [printValues, List.cons_append, List.mem_cons, List.mem_append] at hc
    rcases hc with rfl | rfl | hc | hc
    · decide
    · decide
    · exact ihx hs.1 c hc
    · exact ihxs hs.2 c hc
  · intro _ c hc
    exact absurd hc (List.not_mem_nil c)
  · intro e es ihe ihes hsup c hc
    have hs : supportedB e.2 = true ∧ supportedEntriesB es = true := by
      obtain ⟨k, v⟩ := e
      simpa [supportedEntriesB] using hsup
    simp only [printEntriesInline, List.cons_append, List.mem_cons, List.mem_append] at hc
    rcases hc with rfl | rfl | hc | hc
    · decide
    · decide
    · exact ihe hs.1 c hc
    · exact ihes hs.2 c hc
  · intro k v ihv hsup c hc
    simp only [printEntryInline, List.mem_append, List.mem_cons] at hc
    rcases hc with hc | rfl | rfl | rfl | hc
    · exact keyChars_no_newline k c hc
    · decide
    · decide
    · decide
    · exact ihv hsup c hc
/-! ### Remaining helpers: membership, key uniqueness, deep documents -/

theorem supportedEntries_mem : ∀ (es : List (String × JValue)) (k : String) (v : JValue),
    supportedEntriesB es = true → (k, v) ∈ es → supportedB v = true := by
  intro es
  induction es with
  | nil =>
      intro k v _ hm
      exact absurd hm (List.not_mem_nil _)
  | cons e es ih =>
      intro k v h hm
      obtain ⟨k1, v1⟩ := e
      have h2 : supportedB v1 = true ∧ supportedEntriesB es = true := by
        simpa [supportedEntriesB] using h
      rcases List.mem_cons.mp hm with he | hm2
      · obtain ⟨rfl, rfl⟩ : k = k1 ∧ v = v1 := by simpa using he
        exact h2.1
      · exact ih k v h2.2 hm2

theorem nodup_mem_unique : ∀ (es : List (String × JValue)) (k : String) (v1 v2 : JValue),
    (keysOf es).Nodup → (k, v1) ∈ es → (k, v2) ∈ es → v1 = v2 := by
  intro es
  induction es with
  | nil =>
      intro k v1 v2 _ h1 _
      exact absurd h1 (List.not_mem_nil _)
  | cons e es ih =>
      intro k v1 v2 hnd h1 h2
      obtain ⟨k0, v0⟩ := e
      rw [keysOf_cons, List.nodup_cons] at hnd
      rcases List.mem_cons.mp h1 with he1 | hm1 <;>
        rcases List.mem_cons.mp h2 with he2 | hm2
      · obtain ⟨rfl, rfl⟩ : k = k0 ∧ v1 = v0 := by simpa using he1
        have h8 : k = k ∧ v2 = v1 := by simpa using he2
        exact h8.2.symm
      · obtain ⟨rfl, rfl⟩ : k = k0 ∧ v1 = v0 := by simpa using he1
        exact absurd (List.mem_map.mpr ⟨(k, v2), hm2, rfl⟩) hnd.1
      · obtain ⟨rfl, rfl⟩ : k = k0 ∧ v2 = v0 := by simpa using he2
        exact absurd (List.mem_map.mpr ⟨(k, v1), hm1, rfl⟩) hnd.1
      · exact ih k v1 v2 hnd.2 hm1 hm2

theorem deepDoc_reclimit : ∀ (fuel : Nat) (p : List String) (n : Nat), fuel ≤ n →
    ∃ q, flattenRecord fuel p (deepDoc n) = .error (.recursionLimit q) := by
  intro fuel
  induction fuel with
  | zero =>
      intro p n _
      exact ⟨p, by rw [flattenRecord]⟩
  | succ f ihf =>
      intro p n hn
      obtain ⟨m, rfl⟩ : ∃ m, n = m + 1 := ⟨n - 1, by omega⟩
      rw [deepDoc, flattenRecord]
      rw [if_neg (by simp [hasDupKeysB, keysOf])]
      rw [flattenList_cons_rec]
      obtain ⟨q, hq⟩ := ihf (p ++ ["k"]) m (by omega)
      rw [hq]
      exact ⟨q, by simp [Bind.bind, Except.bind]⟩

set_option maxRecDepth 100000

/-! ### The claims -/

/-- C1 (amended round-trip): parsing the serialized text of any Document that
serializes successfully reconstructs the Document up to the documented
partition-and-reorder of each record's entries (scalar/array entries first,
nested records after, recursively) — not the original insertion order, which
serialization deliberately changes whenever a nested record precedes a
scalar.  `reorderEntries` is exactly that reordering. -/
theorem roundtrip_reordered : ∀ (d : Document) (s : String),
    serializeDoc d = .ok s → parse s = some (reorderEntries d) := by
  intro d s h
  exact serialize_parse h

/-- C1 witness: the amended round-trip at a concrete two-entry document. -/
theorem roundtrip_reordered_w :
    parse "a = 1\n\n[b]\n" =
      some (reorderEntries [("b", JValue.record []), ("a", JValue.int 1)]) :=
  roundtrip_reordered [("b", JValue.record []), ("a", JValue.int 1)]
    "a = 1\n\n[b]\n" (by rfl)

/-- C1 counterexample to the literal claim: a Document whose first entry is a
nested record and whose second is a scalar serializes successfully, but
parsing the output yields the entries in the reordered (scalar-first) order,
not a Document equal to the input — key order is not preserved. -/
theorem roundtrip_literal_cex :
    serializeDoc [("b", JValue.record []), ("a", JValue.int 1)] = .ok "a = 1\n\n[b]\n" ∧
    ¬parse "a = 1\n\n[b]\n" = some [("b", JValue.record []), ("a", JValue.int 1)] := by
  constructor
  · rfl
  · intro h
    have h2 : parse "a = 1\n\n[b]\n" =
        some [("a", JValue.int 1), ("b", JValue.record [])] := rfl
    rw [h2] at h
    injection h with h3
    injection h3 with h4 h5
    injection h4 with h6 h7
    exact absurd h6 (by decide)

/-- C2 (end-to-end scenario): the motivating example Document serializes to
exactly the expected text — `extends = "eslint:recommended"` first, then the
`[rules]` section with its five lines in original insertion order — and
parsing that text reconstructs the example Document exactly. -/
theorem example_end_to_end :
    serializeDoc exampleDoc = .ok exampleOut ∧ parse exampleOut = some exampleDoc := by
  constructor
  · rfl
  · rfl

/-- C3 (key-order-with-reordering): flattening any record at any nesting
level partitions its entries — the scalar/array entries are kept, in original
relative order, as the record's own lines, and the nested-record entries
become the sub-table sections after them, in original relative order,
recursively (`specSections`); the serialized text is those lines followed by
those sections. -/
theorem partition_reorder :
    (∀ (fuel : Nat) (p : List String) (es : List (String × JValue)) x,
      flattenRecord fuel p es = .ok x → x = (nonRecEntries es, specSections p es)) ∧
    (∀ (d : Document) (s : String), serializeDoc d = .ok s →
      s.data = printLines (nonRecEntries d) ++ (specSections [] d).flatMap printSec) := by
  constructor
  · intro fuel p es x h
    obtain ⟨h1, h2, _, _, _⟩ := flattenRecord_ok fuel p es x h
    rw [← h1, ← h2]
  · intro d s h
    exact (serialize_shape h).1

/-- C3 witness: the partition at the spec's [a(scalar), b(Record), c(scalar)]
shape: `a` and `c` stay first in order, the table for `b` moves to the end. -/
theorem partition_reorder_w :
    (([("a", JValue.int 1), ("c", JValue.int 3)],
        [(["b"], [("x", JValue.int 2)])]) :
      List (String × JValue) × List (List String × List (String × JValue))) =
      (nonRecEntries [("a", JValue.int 1), ("b", JValue.record [("x", JValue.int 2)]),
        ("c", JValue.int 3)],
       specSections [] [("a", JValue.int 1), ("b", JValue.record [("x", JValue.int 2)]),
        ("c", JValue.int 3)]) :=
  partition_reorder.1 65 []
    [("a", JValue.int 1), ("b", JValue.record [("x", JValue.int 2)]), ("c", JValue.int 3)]
    ([("a", JValue.int 1), ("c", JValue.int 3)], [(["b"], [("x", JValue.int 2)])])
    (by rfl)

/-- C4 (UnsupportedValueType): a Document holding an unsupported value (null,
NaN, a function value) at any key path never serializes to a string — no
silent drop or coercion, no `nan` token — and whenever serialization reports
`UnsupportedValueType` at a path, the input really holds an unsupported value
at that path. -/
theorem unsupported_value_error : ∀ (d : Document),
    (∀ p, unsupAtDoc d p = true → ∀ s, ¬serializeDoc d = .ok s) ∧
    (∀ q, serializeDoc d = .error (.unsupportedValue q) → unsupAtDoc d q = true) := by
  intro d
  constructor
  · intro p hp s hok
    obtain ⟨_, _, _, hsup⟩ := serialize_shape hok
    rw [unsupAtDoc] at hp
    rw [supported_no_unsup (JValue.record d) (by simpa [supportedB] using hsup) p] at hp
    exact absurd hp (by simp)
  · intro q herr
    rw [serializeDoc] at herr
    cases hf : flattenRecord (maxDepth + 1) [] d with
    | error e =>
        rw [hf] at herr
        obtain rfl : e = .unsupportedValue q := by simpa using herr
        obtain ⟨k, t, hq, hu⟩ := flattenRecord_unsup (maxDepth + 1) [] d q hf
        rw [unsupAtDoc, hq]
        simp only [List.nil_append]
        exact hu
    | ok x =>
        rw [hf] at herr
        exact absurd herr (by simp)

/-- C4 witness: a Document with a NaN value under key `a` cannot serialize to
the garbage line `a = nan`, and path `a` genuinely holds an unsupported
value. -/
theorem unsupported_value_error_w :
    ¬serializeDoc [("a", JValue.nan)] = .ok "a = nan\n" ∧
    unsupAtDoc [("a", JValue.nan)] ["a"] = true :=
  ⟨(unsupported_value_error [("a", JValue.nan)]).1 ["a"] (by rfl) "a = nan\n",
   by rfl⟩

/-- C5 (array inline rendering): every array entry of a serialized Document
is rendered inline on its key's own line (`key = [ ... ]` followed by one
newline, with no newline inside the rendered array), and no sub-table section
is ever named by that key — arrays never become tables. -/
theorem array_inline : ∀ (d : List (String × JValue)) (s : String) (k : String) (xs : List JValue),
    serializeDoc d = .ok s → (k, JValue.arr xs) ∈ d →
    (∃ pre post, s.data =
      pre ++ (keyChars k ++ (' ' :: '=' :: ' ' :: printValue (JValue.arr xs)) ++ ['\n'])
        ++ post) ∧
    (∀ c ∈ printValue (JValue.arr xs), ¬c = '\n') ∧
    (∀ sec ∈ specSections [] d, ¬sec.1 = [k]) := by
  intro d s k xs hok hmem
  obtain ⟨hs, hdup, hsec, hsup⟩ := serialize_shape hok
  have hsupv : supportedB (JValue.arr xs) = true :=
    supportedEntries_mem d k (JValue.arr xs) hsup hmem
  have hmem2 : (k, JValue.arr xs) ∈ nonRecEntries d := by
    rw [nonRecEntries]
    exact List.mem_filter.mpr ⟨hmem, by rfl⟩
  refine ⟨?_, printValue_no_newline (JValue.arr xs) hsupv, ?_⟩
  · obtain ⟨l1, l2, hsplit⟩ := List.append_of_mem hmem2
    refine ⟨printLines l1, printLines l2 ++ (specSections [] d).flatMap printSec, ?_⟩
    rw [hs, printFlat, hsplit]
    simp [printLines, printKVLine]
  · intro sec hsec2 heq
    obtain ⟨k2, t, r, hsec1, hmemr⟩ := specSections_shape [] d sec hsec2
    rw [heq] at hsec1
    obtain ⟨rfl, rfl⟩ : k = k2 ∧ t = ([] : List String) := by
      simpa using hsec1
    have := nodup_mem_unique d k (JValue.arr xs) (JValue.record r)
      (hasDupKeysB_eq_false.mp hdup) hmem hmemr
    exact JValue.noConfusion this

/-- C5 witness: the spec's `{nums: [1, 4]}` record at its serialized output. -/
theorem array_inline_w :
    (∃ pre post, (String.data "nums = [ 1, 4 ]\n") =
      pre ++ (keyChars "nums" ++ (' ' :: '=' :: ' ' ::
        printValue (JValue.arr [JValue.int 1, JValue.int 4])) ++ ['\n']) ++ post) ∧
    (∀ c ∈ printValue (JValue.arr [JValue.int 1, JValue.int 4]), ¬c = '\n') ∧
    (∀ sec ∈ specSections [] [("nums", JValue.arr [JValue.int 1, JValue.int 4])],
      ¬sec.1 = ["nums"]) :=
  array_inline [("nums", JValue.arr [JValue.int 1, JValue.int 4])] "nums = [ 1, 4 ]\n"
    "nums" [JValue.int 1, JValue.int 4] (by rfl) (by exact List.mem_cons_self _ _)

/-- C6 (determinism): serialization is a pure function of the Document — two
successful serializations of the same Document are the same string,
byte for byte. -/
theorem serialize_deterministic : ∀ (d : Document) (s1 s2 : String),
    serializeDoc d = .ok s1 → serializeDoc d = .ok s2 →
    s1 = s2 ∧ s1.data = s2.data := by
  intro d s1 s2 h1 h2
  rw [h1] at h2
  obtain rfl : s1 = s2 := by simpa using h2
  exact ⟨rfl, rfl⟩

/-- C6 witness: determinism at a concrete one-entry document. -/
theorem serialize_deterministic_w :
    ("a = 1\n" : String) = "a = 1\n" ∧ (String.data "a = 1\n") = (String.data "a = 1\n") :=
  serialize_deterministic [("a", JValue.int 1)] "a = 1\n" "a = 1\n" (by rfl) (by rfl)

/-- C7 (string escaping): the serialized form of any string value is a quoted
literal whose body carries no raw control character (newlines, tabs, carriage
returns and all other code points below 32, and DEL, are escaped), and
parsing the literal back recovers exactly the original string — the escaping
is faithful to the format's quoting rules. -/
theorem string_escaping : ∀ (s : String) (rest : List Char) (fuel : Nat),
    headNotB Char.isDigit rest = true →
    2 * (printValue (JValue.str s)).length + 2 * rest.length + 10 ≤ fuel →
    parseValue fuel (printValue (JValue.str s) ++ rest) = some (JValue.str s, rest) ∧
    (∀ c ∈ escapeChars s.data, 32 ≤ c.toNat ∧ ¬c.toNat = 127) := by
  intro s rest fuel h1 h2
  exact ⟨parseValue_print (JValue.str s) (by rfl) rest fuel h1 h2,
    escapeChars_range s.data⟩

/-- C7 witness: a string containing quotes and a newline, escaped and parsed
back. -/
theorem string_escaping_w :
    parseValue 100 (printValue (JValue.str "say \"hi\"\n") ++ []) =
      some (JValue.str "say \"hi\"\n", []) ∧
    (∀ c ∈ escapeChars (String.data "say \"hi\"\n"), 32 ≤ c.toNat ∧ ¬c.toNat = 127) :=
  string_escaping "say \"hi\"\n" [] 100 (by rfl) (by decide)

/-- C8 (RecursionLimitExceeded): serialization of any Document within the
depth bound never reports the recursion limit (the total recursive transform
simply terminates), while for every nesting depth beyond the bound there is a
Document — the straight chain of nested records — whose serialization fails
fast with `RecursionLimitExceeded`. -/
theorem recursion_limit :
    (∀ (d : Document) (p : List String), depthDoc d ≤ maxDepth →
      ¬serializeDoc d = .error (.recursionLimit p)) ∧
    (∀ n, maxDepth < n → ∃ p, serializeDoc (deepDoc n) = .error (.recursionLimit p)) := by
  constructor
  · intro d p hd h
    rw [serializeDoc] at h
    cases hf : flattenRecord (maxDepth + 1) [] d with
    | error e =>
        rw [hf] at h
        obtain rfl : e = .recursionLimit p := by simpa using h
        refine flattenRecord_no_reclimit (maxDepth + 1) [] d p ?_ hf
        rw [depthDoc] at hd
        omega
    | ok x =>
        rw [hf] at h
        exact absurd h (by simp)
  · intro n hn
    obtain ⟨q, hq⟩ := deepDoc_reclimit (maxDepth + 1) [] n (by omega)
    rw [serializeDoc, hq]
    exact ⟨q, rfl⟩

/-- C8 witness: a flat document is below the bound and never reports the
limit; the 70-deep record chain exceeds the 64-deep bound and fails with it. -/
theorem recursion_limit_w :
    (¬serializeDoc [("k", JValue.int 1)] = .error (.recursionLimit ["k"])) ∧
    ∃ p, serializeDoc (deepDoc 70) = .error (.recursionLimit p) :=
  ⟨recursion_limit.1 [("k", JValue.int 1)] ["k"] (by decide),
   recursion_limit.2 70 (by decide)⟩

/-- C9 (no partial output): serialization of any input either succeeds with a
complete, parseable configuration-markup string and no error, or reports an
error and no string — never both, and never a partial string. -/
theorem no_partial_output : ∀ (d : Document),
    ((∃ s, serializeDoc d = .ok s ∧ ∃ out, parse s = some out) ∧
      ∀ e, ¬serializeDoc d = .error e) ∨
    ((∃ e, serializeDoc d = .error e) ∧ ∀ s, ¬serializeDoc d = .ok s) := by
  intro d
  cases h : serializeDoc d with
  | ok s =>
      left
      refine ⟨⟨s, rfl, reorderEntries d, serialize_parse h⟩, ?_⟩
      intro e he
      exact absurd he (by simp)
  | error e =>
      right
      refine ⟨⟨e, rfl⟩, ?_⟩
      intro s hs
      exact absurd hs (by simp)

/-- C10 (pass-through equivalence): `formatTOML` returns exactly the string
of the underlying conversion routine applied to its results argument, with no
post-processing, and the optional context argument of the exported formatter
has no effect on the output. -/
theorem formatter_passthrough : ∀ (results : Document),
    formatTOML results = json2tomlConverter results ∧
    (∀ (α : Type) (c1 c2 : α), applyFormatter results c1 = formatTOML results ∧
      applyFormatter results c1 = applyFormatter results c2) := by
  intro results
  exact ⟨rfl, fun α c1 c2 => ⟨rfl, rfl⟩⟩
end ETF
